import Mathlib

/-!
Verification development for the storage `ls` core
(`internal/storage/ls/ls.go`): address parsing, bucket/prefix
splitting, single-level paginated listing, and the recursive walk.

Go strings are modelled as `List Char` (the only byte the code ever
splits on is '/', which is never part of a multi-byte UTF-8 sequence,
so character-level splitting agrees with Go's byte-level splitting).
The storage backend (package `client`, not part of the sources under
verification) is modelled as a record of pure functions: `listBuckets`
returns the ordered bucket names, `listObjects` returns one page of
objects for a bucket/prefix/page-index triple, and `pageLimit` models
the fixed page-size constant `client.PAGE_LIMIT`.  Consumer callbacks
are modelled as state transformers `σ → GoStr → σ × Option ε`: the
state holds the callback's side effects (which persist even when the
callback reports an error, as in Go), and `some e` models a non-nil
error return.  Both iteration functions additionally return the list
of observable events of the run (backend calls and callback
invocations, in temporal order) and an `Outcome`; `Outcome.spin`
reports fuel exhaustion of a loop that Go runs unboundedly.
-/

abbrev GoStr := List Char

/-- Converts a Lean string literal to the Go-string model. -/
def gs (s : String) : GoStr := s.toList

/-- One storage object as reported by `client.ListStorageObjects`.
`hasId = false` models `o.Id == nil` (the backend convention for a
folder marker). -/
structure StorageObject where
  name : GoStr
  hasId : Bool
deriving DecidableEq, Repr

/-- The backend collaborator (package `client`).  `ε` is the type of
backend/consumer errors. -/
structure Backend (ε : Type) where
  listBuckets : Except ε (List GoStr)
  listObjects : GoStr → GoStr → Nat → Except ε (List StorageObject)
  pageLimit : Nat

/-- One backend call, as recorded in a run's event trace. -/
inductive Call where
  | buckets : Call
  | objects (bucket pfx : GoStr) (page : Nat) : Call
deriving DecidableEq, Repr

/-- One observable event of a run: a backend call, a callback
invocation from the single-level listing (`emit`), a leaf-object
delivery from the recursive walk (`leaf`), or a synthetic
empty-bucket delivery from the recursive walk (`marker`). -/
inductive Event where
  | call : Call → Event
  | emit : GoStr → Event
  | leaf : GoStr → Event
  | marker : GoStr → Event
deriving DecidableEq, Repr

/-- Outcome of a run: normal return, error return, or fuel exhaustion
(modelling a loop the Go code would still be running). -/
inductive Outcome (ε : Type) where
  | ok : Outcome ε
  | err : ε → Outcome ε
  | spin : Outcome ε
deriving DecidableEq, Repr

/-- Go: `strings.HasSuffix(s, "/")`. -/
def endsSlash (s : GoStr) : Bool := s.getLast? = some '/'

/-- Splits a list at the first occurrence of '/': returns the part
before and the part after (the separator removed), or `none` when no
'/' occurs.  Models `strings.IndexByte(s, '/')` plus the two slicings
in `SplitBucketPrefix`. -/
def splitOnFirstSlash : GoStr → Option (GoStr × GoStr)
  | [] => none
  | c :: cs =>
    if c = '/' then some ([], cs)
    else
      match splitOnFirstSlash cs with
      | none => none
      | some (a, b) => some (c :: a, b)

/-- Go: `SplitBucketPrefix` (ls.go lines 100-113); the name is
shortened to keep the development's identifiers uniform. -/
def splitBucketPfx (objectPath : GoStr) : GoStr × GoStr :=
  if objectPath = [] ∨ objectPath = ['/'] then ([], [])
  else
    let rest := if objectPath.head? = some '/' then objectPath.tail else objectPath
    match splitOnFirstSlash rest with
    | none => (rest, [])
    | some (b, p) => (b, p)

/-- Invokes the callback on each name in order, recording one `emit`
event per invocation and stopping at the first callback error.
Models the `for ... { if err := callback(...); err != nil ... }`
bodies of `IterateStoragePaths`. -/
def emitAll {σ ε : Type} (cb : σ → GoStr → σ × Option ε) (s : σ) :
    List GoStr → List Event × σ × Option ε
  | [] => ([], s, none)
  | n :: ns =>
    match cb s n with
    | (s', some e) => ([.emit n], s', some e)
    | (s', none) =>
      let r := emitAll cb s' ns
      (.emit n :: r.1, r.2)

/-- The display name of one listed object: Go appends "/" when
`o.Id == nil` (ls.go lines 82-85). -/
def objName (o : StorageObject) : GoStr :=
  if o.hasId then o.name else o.name ++ ['/']

/-- The pagination loop of `IterateStoragePaths` (ls.go lines 75-95):
fetch page `i`, deliver its entries, and continue with page `i+1`
exactly when page `i` held exactly `PAGE_LIMIT` entries.  `fuel`
bounds the number of iterations (Go loops unboundedly; running out of
fuel yields `Outcome.spin`). -/
def listPages {σ ε : Type} (B : Backend ε) (cb : σ → GoStr → σ × Option ε)
    (bucket pfx : GoStr) : Nat → Nat → σ → List Event × σ × Outcome ε
  | 0, _, s => ([], s, .spin)
  | fuel + 1, i, s =>
    match B.listObjects bucket pfx i with
    | .error e => ([.call (.objects bucket pfx i)], s, .err e)
    | .ok objs =>
      let r := emitAll cb s (objs.map objName)
      match r.2.2 with
      | some e => (.call (.objects bucket pfx i) :: r.1, r.2.1, .err e)
      | none =>
        if objs.length = B.pageLimit then
          let r2 := listPages B cb bucket pfx fuel (i + 1) r.2.1
          (.call (.objects bucket pfx i) :: r.1 ++ r2.1, r2.2)
        else (.call (.objects bucket pfx i) :: r.1, r.2.1, .ok)

/-- Go: `IterateStoragePaths` (ls.go lines 60-98).  Either lists all
buckets whose name starts with the (possibly empty) bucket component
(one unpaginated `listBuckets` call) or pages through
`listObjects`. -/
def iterateStoragePaths {σ ε : Type} (B : Backend ε)
    (cb : σ → GoStr → σ × Option ε) (pageFuel : Nat) (remotePath : GoStr)
    (s : σ) : List Event × σ × Outcome ε :=
  let bp := splitBucketPfx remotePath
  if bp.1.isEmpty || (bp.2.isEmpty && !endsSlash remotePath) then
    match B.listBuckets with
    | .error e => ([.call .buckets], s, .err e)
    | .ok bs =>
      let names := (bs.filter fun b => bp.1.isPrefixOf b).map fun b => b ++ ['/']
      let r := emitAll cb s names
      (.call .buckets :: r.1, r.2.1,
        match r.2.2 with
        | some e => .err e
        | none => .ok)
  else
    listPages B cb bp.1 bp.2 pageFuel 0 s

/-- Go: the directory part of `path.Split(s)` — everything up to and
including the final '/', or `[]` when `s` holds no '/'. -/
def pathSplitDir : GoStr → GoStr
  | [] => []
  | c :: cs =>
    if cs.contains '/' then c :: pathSplitDir cs
    else if c = '/' then ['/'] else []

/-- The seed callback of `IterateStoragePathsAll` (ls.go lines
133-139): directories are pushed onto the queue (no delivery), leaves
are delivered as `basePath + objectName`. -/
def seedCb {σ ε : Type} (base : GoStr) (cb : σ → GoStr → σ × Option ε) :
    List GoStr × σ → GoStr → (List GoStr × σ) × Option ε :=
  fun qs n =>
    let p := base ++ n
    if endsSlash n then ((qs.1 ++ [p], qs.2), none)
    else
      let r := cb qs.2 p
      ((qs.1, r.1), r.2)

/-- The drain callback of `IterateStoragePathsAll` (ls.go lines
147-154): clears the `empty` flag, then enqueues directories and
delivers leaves as `dirPath + objectName`. -/
def drainCb {σ ε : Type} (dir : GoStr) (cb : σ → GoStr → σ × Option ε) :
    Bool × List GoStr × σ → GoStr → (Bool × List GoStr × σ) × Option ε :=
  fun st n =>
    let p := dir ++ n
    if endsSlash n then ((false, st.2.1 ++ [p], st.2.2), none)
    else
      let r := cb st.2.2 p
      ((false, st.2.1, r.1), r.2)

/-- Rewrites the event trace of an inner `iterateStoragePaths` call
into walk events: callback invocations on directory names were queue
pushes (no event), invocations on leaf names were deliveries of the
concatenated full path. -/
def walkEvts (base : GoStr) : List Event → List Event
  | [] => []
  | .emit n :: es =>
    if endsSlash n then walkEvts base es
    else .leaf (base ++ n) :: walkEvts base es
  | e :: es => e :: walkEvts base es

/-- The drain loop of `IterateStoragePathsAll` (ls.go lines 143-165):
while the queue is non-empty, pop the most recently pushed path
(`dirQueue[len(dirQueue)-1]`), list it, and after an entirely empty
listing whose path has an empty prefix component deliver the
synthetic `bucket + "/"` result.  `fuel` bounds the iterations. -/
def drainLoop {σ ε : Type} (B : Backend ε) (cb : σ → GoStr → σ × Option ε)
    (pageFuel : Nat) : Nat → List GoStr → σ → List Event × σ × Outcome ε
  | 0, q, s => if q.isEmpty then ([], s, .ok) else ([], s, .spin)
  | fuel + 1, q, s =>
    match q.getLast? with
    | none => ([], s, .ok)
    | some dirPath =>
      let q' := q.dropLast
      let r := iterateStoragePaths B (drainCb dirPath cb) pageFuel dirPath
        (true, q', s)
      let evs := walkEvts dirPath r.1
      match r.2.2 with
      | .err e => (evs, r.2.1.2.2, .err e)
      | .spin => (evs, r.2.1.2.2, .spin)
      | .ok =>
        let bp := splitBucketPfx dirPath
        if r.2.1.1 && bp.2.isEmpty then
          let c := cb r.2.1.2.2 (bp.1 ++ ['/'])
          match c.2 with
          | some e => (evs ++ [.marker (bp.1 ++ ['/'])], c.1, .err e)
          | none =>
            let r2 := drainLoop B cb pageFuel fuel r.2.1.2.1 c.1
            (evs ++ .marker (bp.1 ++ ['/']) :: r2.1, r2.2)
        else
          let r2 := drainLoop B cb pageFuel fuel r.2.1.2.1 r.2.1.2.2
          (evs ++ r2.1, r2.2)

/-- Go: `IterateStoragePathsAll` (ls.go lines 125-167).  Computes the
base path, seeds queue and deliveries from one listing of
`remotePath`, then drains the queue. -/
def iterateStoragePathsAll {σ ε : Type} (B : Backend ε)
    (cb : σ → GoStr → σ × Option ε) (pageFuel qFuel : Nat)
    (remotePath : GoStr) (s : σ) : List Event × σ × Outcome ε :=
  let base := if endsSlash remotePath then remotePath else pathSplitDir remotePath
  let r := iterateStoragePaths B (seedCb base cb) pageFuel remotePath ([], s)
  let evs := walkEvts base r.1
  match r.2.2 with
  | .err e => (evs, r.2.1.2, .err e)
  | .spin => (evs, r.2.1.2, .spin)
  | .ok =>
    let r2 := drainLoop B cb pageFuel qFuel r.2.1.1 r.2.1.2
    (evs ++ r2.1, r2.2)

/-- The collecting callback of `ListStoragePaths` /
`ListStoragePathsAll` (ls.go lines 51-58 and 116-123): appends every
delivered name and never fails. -/
def collect {ε : Type} : List GoStr → GoStr → List GoStr × Option ε :=
  fun acc n => (acc ++ [n], none)

/-- The trivial callback used to talk about the pure (backend-only)
behaviour of a run. -/
def pureCb {ε : Type} : Unit → GoStr → Unit × Option ε :=
  fun _ _ => ((), none)

/-!
### Model of Go's `net/url.Parse`

`ParseStorageURL` delegates URL parsing to the Go standard library
(`net/url`, external to this repository).  The definitions below
model `url.Parse` for the fields the code observes (`Scheme`, `Host`,
`Path`): fragment splitting at the first '#' (with escape validation
of the fragment), the control-character check, scheme extraction,
query truncation at the first '?', the opaque (non-rooted) case with
its first-segment colon check, authority parsing (userinfo at the
last '@', optional port validation, escape validation) and
percent-decoding of the path.  The IPv6 zone normalisation inside
bracketed hosts is not modelled (it only rewrites exotic bracketed
hosts, which `ParseStorageURL` rejects as non-empty anyway).
-/

/-- Decoded URL fields observed by `ParseStorageURL`.  For an opaque
URL (`scheme:rest` with no rooted path) `path` is `[]`, as in Go. -/
structure GoUrl where
  scheme : GoStr
  host : GoStr
  path : GoStr
deriving DecidableEq, Repr

/-- The distinct error conditions of the modelled `url.Parse`. -/
inductive UrlErr where
  | ctlChar
  | missingScheme
  | colonSegment
  | badEscape
  | badAuthority
  | badPort
deriving DecidableEq, Repr

/-- Go: `stringContainsCTLByte`. -/
def hasCtl (s : GoStr) : Bool := s.any fun c => c.toNat < 0x20 || c.toNat = 0x7f

def isHexDigit (c : Char) : Bool :=
  c.isDigit || ('a' ≤ c && c ≤ 'f') || ('A' ≤ c && c ≤ 'F')

def hexDigitVal (c : Char) : Nat :=
  if c.isDigit then c.toNat - 48
  else if 'a' ≤ c && c ≤ 'f' then c.toNat - 87
  else c.toNat - 55

/-- Go: `unescape` — percent-decoding; `none` models the
`EscapeError` returned for a '%' not followed by two hex digits. -/
def unescape : GoStr → Option GoStr
  | [] => some []
  | '%' :: c1 :: c2 :: rest =>
    if isHexDigit c1 && isHexDigit c2 then
      (unescape rest).map fun r => Char.ofNat (16 * hexDigitVal c1 + hexDigitVal c2) :: r
    else none
  | '%' :: _ => none
  | c :: rest => (unescape rest).map fun r => c :: r

/-- Splits at the first occurrence of `c`, keeping `c` at the head of
the second component; `(s, [])` when `c` does not occur.  Models the
`strings.Index` -based slicings of `net/url.parse`. -/
def cutAtFirstKeep (c : Char) : GoStr → GoStr × GoStr
  | [] => ([], [])
  | x :: xs =>
    if x = c then ([], x :: xs)
    else
      let r := cutAtFirstKeep c xs
      (x :: r.1, r.2)

/-- Splits at the last occurrence of `c` (dropping `c`); `none` when
`c` does not occur.  Models `strings.LastIndex`. -/
def splitAtLast (c : Char) : GoStr → Option (GoStr × GoStr)
  | [] => none
  | x :: xs =>
    match splitAtLast c xs with
    | some (a, b) => some (x :: a, b)
    | none => if x = c then some ([], xs) else none

/-- Go: `getScheme` — `orig` is the whole input (returned unconsumed
when no scheme is present), `acc` the scheme characters read so
far. -/
def schemeScan (orig : GoStr) (acc : GoStr) : GoStr → Except UrlErr (GoStr × GoStr)
  | [] => .ok ([], orig)
  | c :: rest =>
    if c.isAlpha then schemeScan orig (acc ++ [c]) rest
    else if c.isDigit || c = '+' || c = '-' || c = '.' then
      if acc = [] then .ok ([], orig) else schemeScan orig (acc ++ [c]) rest
    else if c = ':' then
      if acc = [] then .error .missingScheme else .ok (acc, rest)
    else .ok ([], orig)

def lowerStr (s : GoStr) : GoStr := s.map Char.toLower

/-- Go: `validOptionalPort`. -/
def validOptionalPort : GoStr → Bool
  | [] => true
  | ':' :: ds => ds.all Char.isDigit
  | _ => false

/-- Go: `parseHost` (zone rewriting inside brackets not modelled). -/
def parseHost (h : GoStr) : Except UrlErr GoStr :=
  if h.head? = some '[' then
    match splitAtLast ']' h with
    | none => .error .badAuthority
    | some (_, post) =>
      if validOptionalPort post then
        match unescape h with
        | none => .error .badEscape
        | some d => .ok d
      else .error .badPort
  else
    match splitAtLast ':' h with
    | some (_, post) =>
      if validOptionalPort (':' :: post) then
        match unescape h with
        | none => .error .badEscape
        | some d => .ok d
      else .error .badPort
    | none =>
      match unescape h with
      | none => .error .badEscape
      | some d => .ok d

/-- Go: `validUserinfo`'s character class. -/
def validUserinfoChar (c : Char) : Bool :=
  c.isAlpha || c.isDigit ||
    c ∈ ['-', '.', '_', ':', '~', '!', '$', '&', '\'', '(', ')', '*', '+', ',',
      ';', '=', '%', '@']

/-- Go: `parseAuthority`, returning the decoded host. -/
def parseAuthority (a : GoStr) : Except UrlErr GoStr :=
  match splitAtLast '@' a with
  | none => parseHost a
  | some (ui, hostRaw) =>
    match parseHost hostRaw with
    | .error e => .error e
    | .ok h =>
      if ui.all validUserinfoChar then
        match unescape ui with
        | none => .error .badEscape
        | some _ => .ok h
      else .error .badAuthority

def startsWith2Slash : GoStr → Bool
  | '/' :: '/' :: _ => true
  | _ => false

def startsWith3Slash : GoStr → Bool
  | '/' :: '/' :: '/' :: _ => true
  | _ => false

/-- Go: `net/url.parse(raw, false)` — the fragment-free part. -/
def goUrlParseInner (raw : GoStr) : Except UrlErr GoUrl :=
  if hasCtl raw then .error .ctlChar
  else if raw = ['*'] then .ok ⟨[], [], ['*']⟩
  else
    match schemeScan raw [] raw with
    | .error e => .error e
    | .ok (sRaw, rest0) =>
      let scheme := lowerStr sRaw
      let rest := (cutAtFirstKeep '?' rest0).1
      if rest.head? ≠ some '/' then
        if scheme ≠ [] then .ok ⟨scheme, [], []⟩
        else if (cutAtFirstKeep '/' rest).1.contains ':' then .error .colonSegment
        else
          match unescape rest with
          | none => .error .badEscape
          | some p => .ok ⟨scheme, [], p⟩
      else
        if (!scheme.isEmpty || !startsWith3Slash rest) && startsWith2Slash rest then
          let ar := cutAtFirstKeep '/' (rest.drop 2)
          match parseAuthority ar.1 with
          | .error e => .error e
          | .ok host =>
            match unescape ar.2 with
            | none => .error .badEscape
            | some p => .ok ⟨scheme, host, p⟩
        else
          match unescape rest with
          | none => .error .badEscape
          | some p => .ok ⟨scheme, [], p⟩

/-- Go: `net/url.Parse` — splits off the fragment at the first '#',
parses the rest, then validates the fragment's escapes. -/
def goUrlParse (raw : GoStr) : Except UrlErr GoUrl :=
  let cut := cutAtFirstKeep '#' raw
  match goUrlParseInner cut.1 with
  | .error e => .error e
  | .ok url =>
    match cut.2 with
    | [] => .ok url
    | _ :: frag =>
      if frag = [] then .ok url
      else
        match unescape frag with
        | none => .error .badEscape
        | some _ => .ok url

/-- Error type of `ParseStorageURL`: either `errInvalidURL` or the
verbatim error of `url.Parse` (ls.go line 43 returns the latter
unchanged). -/
inductive ParseErr where
  | invalid : ParseErr
  | urlErr : UrlErr → ParseErr
deriving DecidableEq, Repr

/-- Go: `STORAGE_SCHEME = "ss"`. -/
def storageScheme : GoStr := ['s', 's']

/-- Go: `ParseStorageURL` (ls.go lines 40-49). -/
def parseStorageURL (objectPath : GoStr) : Except ParseErr GoStr :=
  match goUrlParse objectPath with
  | .error e => .error (.urlErr e)
  | .ok u =>
    if lowerStr u.scheme ≠ storageScheme ∨ u.path = [] ∨ u.host ≠ [] then
      .error .invalid
    else .ok u.path

/-!
### Properties of the path splitter
-/

theorem splitOnFirstSlash_cons (c : Char) (cs : GoStr) :
    splitOnFirstSlash (c :: cs) =
      if c = '/' then some ([], cs)
      else
        match splitOnFirstSlash cs with
        | none => none
        | some (a, b) => some (c :: a, b) := rfl

theorem splitOnFirstSlash_eq_none {r : GoStr} (h : '/' ∉ r) :
    splitOnFirstSlash r = none := by
  induction r with
  | nil => rfl
  | cons c cs ih =>
    simp only [List.mem_cons, not_or] at h
    have hc : ¬c = '/' := fun hx => h.1 hx.symm
    rw [splitOnFirstSlash_cons, if_neg hc, ih h.2]

theorem splitOnFirstSlash_shape {r a b : GoStr}
    (h : splitOnFirstSlash r = some (a, b)) : r = a ++ '/' :: b ∧ '/' ∉ a := by
  induction r generalizing a b with
  | nil => exact absurd h (by simp [splitOnFirstSlash])
  | cons c cs ih =>
    rw [splitOnFirstSlash_cons] at h
    by_cases hc : c = '/'
    · rw [if_pos hc] at h
      obtain ⟨h1, h2⟩ : ([] : GoStr) = a ∧ cs = b := by
        have h3 := Option.some.inj h
        exact ⟨congrArg Prod.fst h3, congrArg Prod.snd h3⟩
      subst h1; subst h2; subst hc
      exact ⟨rfl, by simp⟩
    · rw [if_neg hc] at h
      cases hsp : splitOnFirstSlash cs with
      | none => rw [hsp] at h; exact absurd h (by simp)
      | some p =>
        obtain ⟨a', b'⟩ := p
        rw [hsp] at h
        obtain ⟨h1, h2⟩ : c :: a' = a ∧ b' = b := by
          have h3 := Option.some.inj h
          exact ⟨congrArg Prod.fst h3, congrArg Prod.snd h3⟩
        subst h1; subst h2
        obtain ⟨h4, h5⟩ := ih hsp
        refine ⟨by rw [h4]; rfl, ?_⟩
        simp only [List.mem_cons, not_or]
        exact ⟨fun hx => hc hx.symm, h5⟩

theorem takeWhile_no_slash {r : GoStr} (h : '/' ∉ r) :
    r.takeWhile (fun c => c != '/') = r ∧ r.dropWhile (fun c => c != '/') = [] := by
  induction r with
  | nil => simp
  | cons c cs ih =>
    simp only [List.mem_cons, not_or] at h
    have hc : (c != '/') = true := by
      simp only [bne_iff_ne, ne_eq]
      exact fun hx => h.1 hx.symm
    obtain ⟨h1, h2⟩ := ih h.2
    exact ⟨by simp [List.takeWhile_cons, hc, h1], by simp [List.dropWhile_cons, hc, h2]⟩

theorem takeWhile_slash_append {a b : GoStr} (h : '/' ∉ a) :
    (a ++ '/' :: b).takeWhile (fun c => c != '/') = a ∧
      (a ++ '/' :: b).dropWhile (fun c => c != '/') = '/' :: b := by
  induction a with
  | nil => simp [List.takeWhile_cons, List.dropWhile_cons]
  | cons c cs ih =>
    simp only [List.mem_cons, not_or] at h
    have hc : (c != '/') = true := by
      simp only [bne_iff_ne, ne_eq]
      exact fun hx => h.1 hx.symm
    obtain ⟨h1, h2⟩ := ih h.2
    exact ⟨by simp [List.takeWhile_cons, hc, h1], by simp [List.dropWhile_cons, hc, h2]⟩

/-- C7: `SplitBucketPrefix` is a total pure function mapping `""` and
`"/"` to `("", "")`, and otherwise stripping one leading '/' if
present, taking the remainder up to (not including) the first
remaining '/' as the bucket and everything after that '/' as the
prefix; when no '/' remains the whole remainder is the bucket and the
prefix is empty (the take/drop formulation below also covers that
case, since then the dropWhile part is empty). -/
theorem splitBucketPfx_spec (p : GoStr) :
    splitBucketPfx p =
      if p = [] ∨ p = ['/'] then ([], [])
      else
        ((if p.head? = some '/' then p.tail else p).takeWhile (fun c => c != '/'),
          ((if p.head? = some '/' then p.tail else p).dropWhile
            (fun c => c != '/')).drop 1) := by
  by_cases h0 : p = [] ∨ p = ['/']
  · simp [splitBucketPfx, h0]
  · simp only [splitBucketPfx]
    rw [if_neg h0, if_neg h0]
    set r := if p.head? = some '/' then p.tail else p with hr
    cases hsp : splitOnFirstSlash r with
    | none =>
      have hmem : '/' ∉ r := by
        intro hm
        obtain ⟨a, b, hab⟩ := List.append_of_mem hm
        rw [hab] at hsp
        clear hab hm
        induction a with
        | nil => simp [splitOnFirstSlash_cons] at hsp
        | cons x xs ih =>
          rw [List.cons_append, splitOnFirstSlash_cons] at hsp
          by_cases hx : x = '/'
          · rw [if_pos hx] at hsp; exact absurd hsp (by simp)
          · rw [if_neg hx] at hsp
            cases hxs : splitOnFirstSlash (xs ++ '/' :: b) with
            | none => exact ih hxs
            | some q => rw [hxs] at hsp; exact absurd hsp (by simp)
      obtain ⟨h1, h2⟩ := takeWhile_no_slash hmem
      simp [h1, h2]
    | some q =>
      obtain ⟨a, b⟩ := q
      obtain ⟨h1, h2⟩ := splitOnFirstSlash_shape hsp
      obtain ⟨h3, h4⟩ := takeWhile_slash_append (b := b) h2
      rw [h1, h3, h4]
      simp

/-!
### Concrete backends for the claims' scenarios
-/

/-- The spec's breadth-first example: bucket "a" holds object `x.txt`
and folder marker `y/`; `a/y` holds `z.txt`. -/
def exampleBackend : Backend Nat where
  listBuckets := .ok [gs "a"]
  listObjects := fun b p _ =>
    if b = gs "a" ∧ p = [] then .ok [⟨gs "x.txt", true⟩, ⟨gs "y", false⟩]
    else if b = gs "a" ∧ p = gs "y/" then .ok [⟨gs "z.txt", true⟩]
    else .ok []
  pageLimit := 100

/-- A backend with two sibling folders of different depths: bucket
"a" holds folders `p/` and `q/`; `a/p` holds leaf `f.txt`; `a/q`
holds folder `r/`; `a/q/r` holds leaf `g.txt`. -/
def branchBackend : Backend Nat where
  listBuckets := .ok [gs "a"]
  listObjects := fun b p _ =>
    if b = gs "a" ∧ p = [] then .ok [⟨gs "p", false⟩, ⟨gs "q", false⟩]
    else if b = gs "a" ∧ p = gs "p/" then .ok [⟨gs "f.txt", true⟩]
    else if b = gs "a" ∧ p = gs "q/" then .ok [⟨gs "r", false⟩]
    else if b = gs "a" ∧ p = gs "q/r/" then .ok [⟨gs "g.txt", true⟩]
    else .ok []
  pageLimit := 100

/-- A backend holding exactly one empty bucket "b". -/
def emptyBucketBackend : Backend Nat where
  listBuckets := .ok [gs "b"]
  listObjects := fun _ _ _ => .ok []
  pageLimit := 100

/-- A backend whose bucket "c" holds object `a.txt` and folder marker
`sub/`, with nothing under `c/sub/`. -/
def emptySubBackend : Backend Nat where
  listBuckets := .ok [gs "c"]
  listObjects := fun b p _ =>
    if b = gs "c" ∧ p = [] then .ok [⟨gs "a.txt", true⟩, ⟨gs "sub", false⟩]
    else .ok []
  pageLimit := 100

/-- C1: the recursive walk does NOT deliver leaves in breadth-first
depth order.  The drain loop pops `dirQueue[len(dirQueue)-1]`, the
most recently discovered directory, so the queue is a LIFO stack and
the traversal is depth-first — contradicting both the claim and the
code's own comment "BFS so we can list paths in increasing depth".
With `branchBackend`, the leaf `g.txt` (discovered two directory
levels below the bucket, while draining `a/q/r/`) is delivered before
the leaf `f.txt` (discovered one level higher, while draining
`a/p/`).  On the claim's own example the walk delivers `/a/x.txt`
then `/a/y/z.txt` and never delivers the directory `a/y/` itself
(directories are enqueued, not emitted). -/
theorem walk_is_depth_first_not_breadth_first :
    (iterateStoragePathsAll branchBackend collect 4 8 (gs "/a/") []).2.1 =
        [gs "/a/q/r/g.txt", gs "/a/p/f.txt"] ∧
      (iterateStoragePathsAll branchBackend collect 4 8 (gs "/a/") []).2.2 =
        Outcome.ok ∧
      (iterateStoragePathsAll exampleBackend collect 4 8 (gs "/a/") []).2.1 =
        [gs "/a/x.txt", gs "/a/y/z.txt"] ∧
      (iterateStoragePathsAll exampleBackend collect 4 8 (gs "/a/") []).2.2 =
        Outcome.ok := by
  exact ⟨rfl, rfl, rfl, rfl⟩

/-- C2 counterexample: the recursive walk over `ss:///b/` for a
backend holding exactly one empty bucket "b" delivers nothing — not
the synthetic `b/` the claim requires.  The empty-bucket check (ls.go
lines 158-164) runs only for paths drained from the queue, and the
seed listing of `/b/` returns zero entries, so the queue stays empty;
the same backend walked from `ss:///` does deliver exactly `b/`. -/
theorem walk_empty_bucket_seed_counterexample :
    (iterateStoragePathsAll emptyBucketBackend collect 4 8 (gs "/b/") []).2.1 = [] ∧
      ([] : List GoStr) ≠ [gs "b/"] ∧
      (iterateStoragePathsAll emptyBucketBackend collect 4 8 (gs "/b/") []).2.2 =
        Outcome.ok ∧
      (iterateStoragePathsAll emptyBucketBackend collect 4 8 (gs "/") []).2.1 =
        [gs "b/"] := by
  exact ⟨rfl, by decide, rfl, rfl⟩

/-!
### Runs as consumption of a pure event stream

`consume cb s evs` replays an event stream against a callback:
backend-call events pass through, delivery events feed the callback,
and the replay stops right after the first callback error (the
delivered events are therefore always a take-prefix of the stream).
The lemmas below show that a run with an arbitrary callback equals
the replay of the pure run's event stream — which is exactly the
at-least-once / prefix / unchanged-error-propagation discipline of
the Go code.
-/

/-- The delivered name of an event, when it is a delivery. -/
def emitStr : Event → Option GoStr
  | .call _ => none
  | .emit n => some n
  | .leaf n => some n
  | .marker n => some n

def consume {σ ε : Type} (cb : σ → GoStr → σ × Option ε) (s : σ) :
    List Event → List Event × σ × Option ε
  | [] => ([], s, none)
  | ev :: evs =>
    match emitStr ev with
    | none =>
      let r := consume cb s evs
      (ev :: r.1, r.2)
    | some n =>
      match cb s n with
      | (s', some e) => ([ev], s', some e)
      | (s', none) =>
        let r := consume cb s' evs
        (ev :: r.1, r.2)

/-- A callback error turns a pure outcome into that error. -/
def combineOutcome {ε : Type} (r : Option ε) (o : Outcome ε) : Outcome ε :=
  match r with
  | some e => .err e
  | none => o

theorem consume_nil {σ ε : Type} (cb : σ → GoStr → σ × Option ε) (s : σ) :
    consume cb s [] = ([], s, none) := rfl

theorem consume_call {σ ε : Type} (cb : σ → GoStr → σ × Option ε) (s : σ)
    (c : Call) (evs : List Event) :
    consume cb s (.call c :: evs) =
      (let r := consume cb s evs
       (.call c :: r.1, r.2)) := rfl

theorem consume_append {σ ε : Type} (cb : σ → GoStr → σ × Option ε) :
    ∀ (l1 l2 : List Event) (s : σ),
      consume cb s (l1 ++ l2) =
        (let r1 := consume cb s l1
         match r1.2.2 with
         | some e => (r1.1, r1.2.1, some e)
         | none =>
           let r2 := consume cb r1.2.1 l2
           (r1.1 ++ r2.1, r2.2)) := by
  intro l1
  induction l1 with
  | nil => intro l2 s; rfl
  | cons ev evs ih =>
    intro l2 s
    show consume cb s (ev :: (evs ++ l2)) = _
    cases hev : emitStr ev with
    | none =>
      simp only [consume, hev, ih l2 s]
      cases (consume cb s evs).2.2 <;> rfl
    | some n =>
      simp only [consume, hev]
      cases hcb : cb s n with
      | mk s' r =>
        cases r with
        | some e => rfl
        | none =>
          simp only [ih l2 s']
          cases (consume cb s' evs).2.2 <;> rfl

theorem consume_map_emit {σ ε : Type} (cb : σ → GoStr → σ × Option ε) :
    ∀ (names : List GoStr) (s : σ),
      consume cb s (names.map Event.emit) = emitAll cb s names := by
  intro names
  induction names with
  | nil => intro s; rfl
  | cons n ns ih =>
    intro s
    show consume cb s (.emit n :: ns.map Event.emit) = _
    simp only [consume, emitStr, emitAll]
    cases hcb : cb s n with
    | mk s' r =>
      cases r with
      | some e => rfl
      | none => simp only [ih s']

theorem emitAll_pure {ε : Type} :
    ∀ (names : List GoStr),
      emitAll (pureCb (ε := ε)) () names = (names.map Event.emit, (), none) := by
  intro names
  induction names with
  | nil => rfl
  | cons n ns ih => simp only [emitAll, pureCb, ih]; rfl

theorem consume_pure {ε : Type} :
    ∀ (evs : List Event), consume (pureCb (ε := ε)) () evs = (evs, (), none) := by
  intro evs
  induction evs with
  | nil => rfl
  | cons ev evs ih =>
    cases hev : emitStr ev with
    | none => simp only [consume, hev, ih]
    | some n => simp only [consume, hev, pureCb, ih]

/-- The replayed (delivered) events are a take-prefix of the stream:
nothing is reordered, invented, or retracted. -/
theorem consume_take {σ ε : Type} (cb : σ → GoStr → σ × Option ε) :
    ∀ (evs : List Event) (s : σ),
      ∃ k, (consume cb s evs).1 = evs.take k := by
  intro evs
  induction evs with
  | nil => intro s; exact ⟨0, rfl⟩
  | cons ev evs ih =>
    intro s
    cases hev : emitStr ev with
    | none =>
      obtain ⟨k, hk⟩ := ih s
      exact ⟨k + 1, by simp only [consume, hev, List.take_succ_cons, hk]⟩
    | some n =>
      cases hcb : cb s n with
      | mk s' r =>
        cases r with
        | some e => exact ⟨1, by simp [consume, hev, hcb]⟩
        | none =>
          obtain ⟨k, hk⟩ := ih s'
          exact ⟨k + 1, by simp only [consume, hev, hcb, List.take_succ_cons, hk]⟩

theorem listPages_eq_consume {σ ε : Type} (B : Backend ε)
    (cb : σ → GoStr → σ × Option ε) (bucket pfx : GoStr) :
    ∀ (fuel i : Nat) (s : σ),
      listPages B cb bucket pfx fuel i s =
        (let pr := listPages B (pureCb (ε := ε)) bucket pfx fuel i ()
         let cr := consume cb s pr.1
         (cr.1, cr.2.1, combineOutcome cr.2.2 pr.2.2)) := by
  intro fuel
  induction fuel with
  | zero => intro i s; rfl
  | succ fuel ih =>
    intro i s
    show listPages B cb bucket pfx (fuel + 1) i s = _
    simp only [listPages]
    cases hbe : B.listObjects bucket pfx i with
    | error e => rfl
    | ok objs =>
      simp only [emitAll_pure]
      cases hr : emitAll cb s (objs.map objName) with
      | mk evs1 rest =>
        obtain ⟨s1, r1⟩ := rest
        by_cases hfull : objs.length = B.pageLimit
        · simp only [if_pos hfull]
          simp only [consume_call, consume_append, consume_map_emit, hr, ih (i + 1) s1]
          cases r1 with
          | some e => rfl
          | none => simp only [combineOutcome]
        · simp only [if_neg hfull]
          simp only [consume_call, consume_map_emit, hr]
          cases r1 with
          | some e => rfl
          | none => rfl

/-- Any run of the single-level listing is the replay — against its
callback, stopping at the callback's first error — of the pure run's
event stream, with a callback error overriding the pure outcome. -/
theorem iterate_eq_consume {σ ε : Type} (B : Backend ε)
    (cb : σ → GoStr → σ × Option ε) (pageFuel : Nat) (remotePath : GoStr)
    (s : σ) :
    iterateStoragePaths B cb pageFuel remotePath s =
      (let pr := iterateStoragePaths B (pureCb (ε := ε)) pageFuel remotePath ()
       let cr := consume cb s pr.1
       (cr.1, cr.2.1, combineOutcome cr.2.2 pr.2.2)) := by
  simp only [iterateStoragePaths]
  by_cases hbr :
      (splitBucketPfx remotePath).1.isEmpty ||
        ((splitBucketPfx remotePath).2.isEmpty && !endsSlash remotePath)
  · simp only [if_pos hbr]
    cases hbe : B.listBuckets with
    | error e => rfl
    | ok bs =>
      simp only [emitAll_pure]
      simp only [consume_call, consume_map_emit]
      cases hr : emitAll cb s
          (((bs.filter fun b => (splitBucketPfx remotePath).1.isPrefixOf b).map
            fun b => b ++ ['/'])) with
      | mk evs1 rest =>
        obtain ⟨s1, r1⟩ := rest
        cases r1 with
        | some e => rfl
        | none => rfl
  · simp only [if_neg hbr]
    exact listPages_eq_consume B cb _ _ pageFuel 0 s

/-!
### The recursive walk as replay of a pure event stream
-/

/-- Events produced by the single-level listing: backend calls and
plain deliveries only. -/
def CallEmit (ev : Event) : Prop :=
  (∃ c, ev = .call c) ∨ (∃ n, ev = .emit n)

def isEmitEv : Event → Bool
  | .emit _ => true
  | _ => false

/-- The queue growth a stream of listing events causes through the
walk's wrapped callbacks: each delivered directory name is appended
as `base ++ name`. -/
def pushDirs (base : GoStr) (q : List GoStr) : List Event → List GoStr
  | [] => q
  | .emit n :: evs =>
    if endsSlash n then pushDirs base (q ++ [base ++ n]) evs
    else pushDirs base q evs
  | _ :: evs => pushDirs base q evs

theorem walkEvts_append (base : GoStr) :
    ∀ (l1 l2 : List Event),
      walkEvts base (l1 ++ l2) = walkEvts base l1 ++ walkEvts base l2 := by
  intro l1
  induction l1 with
  | nil => intro l2; rfl
  | cons ev evs ih =>
    intro l2
    cases ev with
    | call c =>
      show Event.call c :: walkEvts base (evs ++ l2) = _
      rw [ih]
      rfl
    | emit n =>
      show (if endsSlash n then walkEvts base (evs ++ l2)
        else .leaf (base ++ n) :: walkEvts base (evs ++ l2)) = _
      by_cases hn : endsSlash n = true
      · rw [if_pos hn, ih]
        show _ = (if endsSlash n then walkEvts base evs
          else .leaf (base ++ n) :: walkEvts base evs) ++ walkEvts base l2
        rw [if_pos hn]
      · rw [if_neg hn, ih]
        show _ = (if endsSlash n then walkEvts base evs
          else .leaf (base ++ n) :: walkEvts base evs) ++ walkEvts base l2
        rw [if_neg hn]
        rfl
    | leaf n =>
      show Event.leaf n :: walkEvts base (evs ++ l2) = _
      rw [ih]
      rfl
    | marker n =>
      show Event.marker n :: walkEvts base (evs ++ l2) = _
      rw [ih]
      rfl

theorem emitAll_events_shape {σ ε : Type} (cb : σ → GoStr → σ × Option ε) :
    ∀ (names : List GoStr) (s : σ) (ev : Event),
      ev ∈ (emitAll cb s names).1 → ∃ n, n ∈ names ∧ ev = .emit n := by
  intro names
  induction names with
  | nil => intro s ev h; simp [emitAll] at h
  | cons n ns ih =>
    intro s ev h
    simp only [emitAll] at h
    cases hcb : cb s n with
    | mk s' r =>
      rw [hcb] at h
      cases r with
      | some e =>
        simp only [List.mem_singleton] at h
        exact ⟨n, by simp, h⟩
      | none =>
        simp only [List.mem_cons] at h
        cases h with
        | inl h => exact ⟨n, by simp, h⟩
        | inr h =>
          obtain ⟨m, hm, hev⟩ := ih s' ev h
          exact ⟨m, by simp [hm], hev⟩

theorem listPages_events_shape {σ ε : Type} (B : Backend ε)
    (cb : σ → GoStr → σ × Option ε) (bucket pfx : GoStr) :
    ∀ (fuel i : Nat) (s : σ) (ev : Event),
      ev ∈ (listPages B cb bucket pfx fuel i s).1 → CallEmit ev := by
  intro fuel
  induction fuel with
  | zero => intro i s ev h; simp [listPages] at h
  | succ fuel ih =>
    intro i s ev
    simp only [listPages]
    cases hbe : B.listObjects bucket pfx i with
    | error e =>
      intro h
      simp only [List.mem_singleton] at h
      exact Or.inl ⟨_, h⟩
    | ok objs =>
      cases hr : (emitAll cb s (objs.map objName)).2.2 with
      | some e =>
        intro h
        simp only [hr, List.mem_cons] at h
        cases h with
        | inl h => exact Or.inl ⟨_, h⟩
        | inr h =>
          obtain ⟨nn, _, hev⟩ := emitAll_events_shape cb _ s ev h
          exact Or.inr ⟨nn, hev⟩
      | none =>
        intro h
        simp only [hr] at h
        by_cases hfull : objs.length = B.pageLimit
        · rw [if_pos hfull] at h
          simp only [List.mem_cons, List.mem_append] at h
          rcases h with (h | h) | h
          · exact Or.inl ⟨_, h⟩
          · obtain ⟨nn, _, hev⟩ := emitAll_events_shape cb _ s ev h
            exact Or.inr ⟨nn, hev⟩
          · exact ih (i + 1) _ ev h
        · rw [if_neg hfull] at h
          simp only [List.mem_cons] at h
          cases h with
          | inl h => exact Or.inl ⟨_, h⟩
          | inr h =>
            obtain ⟨nn, _, hev⟩ := emitAll_events_shape cb _ s ev h
            exact Or.inr ⟨nn, hev⟩

theorem iterate_events_shape {σ ε : Type} (B : Backend ε)
    (cb : σ → GoStr → σ × Option ε) (pageFuel : Nat) (remotePath : GoStr)
    (s : σ) (ev : Event)
    (h : ev ∈ (iterateStoragePaths B cb pageFuel remotePath s).1) : CallEmit ev := by
  rw [iterateStoragePaths] at h
  by_cases hbr :
      (splitBucketPfx remotePath).1.isEmpty ||
        ((splitBucketPfx remotePath).2.isEmpty && !endsSlash remotePath)
  · rw [if_pos hbr] at h
    cases hbe : B.listBuckets with
    | error e =>
      simp only [hbe, List.mem_singleton] at h
      exact Or.inl ⟨_, h⟩
    | ok bs =>
      simp only [hbe, List.mem_cons] at h
      cases h with
      | inl h => exact Or.inl ⟨_, h⟩
      | inr h =>
        obtain ⟨n, _, hev⟩ := emitAll_events_shape cb _ _ ev h
        exact Or.inr ⟨n, hev⟩
  · rw [if_neg hbr] at h
    exact listPages_events_shape B cb _ _ pageFuel 0 s ev h

theorem consume_call2 {σ ε : Type} (cb : σ → GoStr → σ × Option ε) (s : σ)
    (c : Call) (evs : List Event) :
    consume cb s (.call c :: evs) =
      (.call c :: (consume cb s evs).1, (consume cb s evs).2) := rfl

theorem consume_cons_emit_err {σ ε : Type} {cb : σ → GoStr → σ × Option ε}
    {s s' : σ} {n : GoStr} {e : ε} (hcb : cb s n = (s', some e))
    (evs : List Event) :
    consume cb s (.emit n :: evs) = ([.emit n], s', some e) := by
  simp only [consume, emitStr, hcb]

theorem consume_cons_emit_ok {σ ε : Type} {cb : σ → GoStr → σ × Option ε}
    {s s' : σ} {n : GoStr} (hcb : cb s n = (s', none)) (evs : List Event) :
    consume cb s (.emit n :: evs) =
      (.emit n :: (consume cb s' evs).1, (consume cb s' evs).2) := by
  simp only [consume, emitStr, hcb]

theorem consume_cons_leaf_err {σ ε : Type} {cb : σ → GoStr → σ × Option ε}
    {s s' : σ} {n : GoStr} {e : ε} (hcb : cb s n = (s', some e))
    (evs : List Event) :
    consume cb s (.leaf n :: evs) = ([.leaf n], s', some e) := by
  simp only [consume, emitStr, hcb]

theorem consume_cons_leaf_ok {σ ε : Type} {cb : σ → GoStr → σ × Option ε}
    {s s' : σ} {n : GoStr} (hcb : cb s n = (s', none)) (evs : List Event) :
    consume cb s (.leaf n :: evs) =
      (.leaf n :: (consume cb s' evs).1, (consume cb s' evs).2) := by
  simp only [consume, emitStr, hcb]

theorem consume_cons_marker_err {σ ε : Type} {cb : σ → GoStr → σ × Option ε}
    {s s' : σ} {n : GoStr} {e : ε} (hcb : cb s n = (s', some e))
    (evs : List Event) :
    consume cb s (.marker n :: evs) = ([.marker n], s', some e) := by
  simp only [consume, emitStr, hcb]

theorem consume_cons_marker_ok {σ ε : Type} {cb : σ → GoStr → σ × Option ε}
    {s s' : σ} {n : GoStr} (hcb : cb s n = (s', none)) (evs : List Event) :
    consume cb s (.marker n :: evs) =
      (.marker n :: (consume cb s' evs).1, (consume cb s' evs).2) := by
  simp only [consume, emitStr, hcb]

theorem walkEvts_cons_dir {base n : GoStr} (hn : endsSlash n = true)
    (evs : List Event) :
    walkEvts base (.emit n :: evs) = walkEvts base evs := by
  simp only [walkEvts, hn, if_pos]

theorem walkEvts_cons_leaf {base n : GoStr} (hn : endsSlash n = false)
    (evs : List Event) :
    walkEvts base (.emit n :: evs) = .leaf (base ++ n) :: walkEvts base evs := by
  simp only [walkEvts, hn, Bool.false_eq_true, if_false]

theorem walkEvts_cons_call (base : GoStr) (c : Call) (evs : List Event) :
    walkEvts base (.call c :: evs) = .call c :: walkEvts base evs := rfl

theorem seedCb_dir {σ ε : Type} (base : GoStr) {n : GoStr} (cb : σ → GoStr → σ × Option ε)
    (hn : endsSlash n = true) (q : List GoStr) (s : σ) :
    seedCb base cb (q, s) n = ((q ++ [base ++ n], s), none) := by
  simp only [seedCb, hn, if_pos]

theorem seedCb_leaf {σ ε : Type} (base : GoStr) {n : GoStr} (cb : σ → GoStr → σ × Option ε)
    (hn : endsSlash n = false) (q : List GoStr) (s : σ) :
    seedCb base cb (q, s) n =
      ((q, (cb s (base ++ n)).1), (cb s (base ++ n)).2) := by
  simp only [seedCb, hn, Bool.false_eq_true, if_false]

theorem drainCb_dir {σ ε : Type} (dir : GoStr) {n : GoStr} (cb : σ → GoStr → σ × Option ε)
    (hn : endsSlash n = true) (f : Bool) (q : List GoStr) (s : σ) :
    drainCb dir cb (f, q, s) n = ((false, q ++ [dir ++ n], s), none) := by
  simp only [drainCb, hn, if_pos]

theorem drainCb_leaf {σ ε : Type} (dir : GoStr) {n : GoStr} (cb : σ → GoStr → σ × Option ε)
    (hn : endsSlash n = false) (f : Bool) (q : List GoStr) (s : σ) :
    drainCb dir cb (f, q, s) n =
      ((false, q, (cb s (dir ++ n)).1), (cb s (dir ++ n)).2) := by
  simp only [drainCb, hn, Bool.false_eq_true, if_false]

theorem pushDirs_cons_dir {base n : GoStr} (hn : endsSlash n = true)
    (q : List GoStr) (evs : List Event) :
    pushDirs base q (.emit n :: evs) = pushDirs base (q ++ [base ++ n]) evs := by
  simp only [pushDirs, hn, if_pos]

theorem pushDirs_cons_leaf {base n : GoStr} (hn : endsSlash n = false)
    (q : List GoStr) (evs : List Event) :
    pushDirs base q (.emit n :: evs) = pushDirs base q evs := by
  simp only [pushDirs, hn, Bool.false_eq_true, if_false]

theorem pushDirs_cons_call (base : GoStr) (c : Call) (q : List GoStr)
    (evs : List Event) :
    pushDirs base q (.call c :: evs) = pushDirs base q evs := rfl

theorem consume_seedCb {σ ε : Type} (base : GoStr) (cb : σ → GoStr → σ × Option ε) :
    ∀ (evs : List Event) (q0 : List GoStr) (s : σ),
      (∀ ev ∈ evs, CallEmit ev) →
      walkEvts base (consume (seedCb base cb) (q0, s) evs).1 =
          (consume cb s (walkEvts base evs)).1 ∧
        (consume (seedCb base cb) (q0, s) evs).2.1.2 =
          (consume cb s (walkEvts base evs)).2.1 ∧
        (consume (seedCb base cb) (q0, s) evs).2.2 =
          (consume cb s (walkEvts base evs)).2.2 ∧
        ((consume (seedCb base cb) (q0, s) evs).2.2 = none →
          (consume (seedCb base cb) (q0, s) evs).2.1.1 = pushDirs base q0 evs ∧
            (consume (seedCb base cb) (q0, s) evs).1 = evs) := by
  intro evs
  induction evs with
  | nil =>
    intro q0 s _
    exact ⟨rfl, rfl, rfl, fun _ => ⟨rfl, rfl⟩⟩
  | cons ev evs ih =>
    intro q0 s hall
    have hev := hall ev (by simp)
    have hrest : ∀ e ∈ evs, CallEmit e := fun e he => hall e (by simp [he])
    rcases hev with ⟨c, rfl⟩ | ⟨n, rfl⟩
    · obtain ⟨ih1, ih2, ih3, ih4⟩ := ih q0 s hrest
      rw [walkEvts_cons_call, consume_call2, consume_call2, pushDirs_cons_call]
      refine ⟨by rw [walkEvts_cons_call, ih1], ih2, ih3, fun hno => ?_⟩
      obtain ⟨h1, h2⟩ := ih4 hno
      exact ⟨h1, by rw [h2]⟩
    · by_cases hn : endsSlash n = true
      · obtain ⟨ih1, ih2, ih3, ih4⟩ := ih (q0 ++ [base ++ n]) s hrest
        rw [consume_cons_emit_ok (seedCb_dir base cb hn q0 s) evs,
          walkEvts_cons_dir hn, walkEvts_cons_dir hn, pushDirs_cons_dir hn]
        refine ⟨ih1, ih2, ih3, fun hno => ?_⟩
        obtain ⟨h1, h2⟩ := ih4 hno
        exact ⟨h1, by rw [h2]⟩
      · rw [Bool.not_eq_true] at hn
        rw [walkEvts_cons_leaf hn]
        cases hcb : cb s (base ++ n) with
        | mk s' rr =>
          cases rr with
          | some e =>
            have hsc : seedCb base cb (q0, s) n = ((q0, s'), some e) := by
              rw [seedCb_leaf base cb hn, hcb]
            rw [consume_cons_emit_err hsc evs, consume_cons_leaf_err hcb
              (walkEvts base evs)]
            exact ⟨by rw [walkEvts_cons_leaf hn]; rfl, rfl, rfl, by simp⟩
          | none =>
            have hsc : seedCb base cb (q0, s) n = ((q0, s'), none) := by
              rw [seedCb_leaf base cb hn, hcb]
            obtain ⟨ih1, ih2, ih3, ih4⟩ := ih q0 s' hrest
            rw [consume_cons_emit_ok hsc evs, consume_cons_leaf_ok hcb
              (walkEvts base evs), pushDirs_cons_leaf hn]
            refine ⟨by rw [walkEvts_cons_leaf hn, ih1], ih2, ih3, fun hno => ?_⟩
            obtain ⟨h1, h2⟩ := ih4 hno
            exact ⟨h1, by rw [h2]⟩

theorem consume_drainCb {σ ε : Type} (dir : GoStr) (cb : σ → GoStr → σ × Option ε) :
    ∀ (evs : List Event) (f : Bool) (q0 : List GoStr) (s : σ),
      (∀ ev ∈ evs, CallEmit ev) →
      walkEvts dir (consume (drainCb dir cb) (f, q0, s) evs).1 =
          (consume cb s (walkEvts dir evs)).1 ∧
        (consume (drainCb dir cb) (f, q0, s) evs).2.1.2.2 =
          (consume cb s (walkEvts dir evs)).2.1 ∧
        (consume (drainCb dir cb) (f, q0, s) evs).2.2 =
          (consume cb s (walkEvts dir evs)).2.2 ∧
        ((consume (drainCb dir cb) (f, q0, s) evs).2.2 = none →
          (consume (drainCb dir cb) (f, q0, s) evs).2.1.2.1 = pushDirs dir q0 evs ∧
            (consume (drainCb dir cb) (f, q0, s) evs).1 = evs ∧
            (consume (drainCb dir cb) (f, q0, s) evs).2.1.1 =
              (f && !(evs.any isEmitEv))) := by
  intro evs
  induction evs with
  | nil =>
    intro f q0 s _
    exact ⟨rfl, rfl, rfl, fun _ => ⟨rfl, rfl, by simp [consume]⟩⟩
  | cons ev evs ih =>
    intro f q0 s hall
    have hev := hall ev (by simp)
    have hrest : ∀ e ∈ evs, CallEmit e := fun e he => hall e (by simp [he])
    rcases hev with ⟨c, rfl⟩ | ⟨n, rfl⟩
    · obtain ⟨ih1, ih2, ih3, ih4⟩ := ih f q0 s hrest
      rw [walkEvts_cons_call, consume_call2, consume_call2, pushDirs_cons_call]
      refine ⟨by rw [walkEvts_cons_call, ih1], ih2, ih3, fun hno => ?_⟩
      obtain ⟨h1, h2, h3⟩ := ih4 hno
      refine ⟨h1, by rw [h2], ?_⟩
      rw [h3]
      simp [isEmitEv]
    · by_cases hn : endsSlash n = true
      · obtain ⟨ih1, ih2, ih3, ih4⟩ := ih false (q0 ++ [dir ++ n]) s hrest
        rw [consume_cons_emit_ok (drainCb_dir dir cb hn f q0 s) evs,
          walkEvts_cons_dir hn, walkEvts_cons_dir hn, pushDirs_cons_dir hn]
        refine ⟨ih1, ih2, ih3, fun hno => ?_⟩
        obtain ⟨h1, h2, h3⟩ := ih4 hno
        refine ⟨h1, by rw [h2], ?_⟩
        rw [h3]
        simp [isEmitEv]
      · rw [Bool.not_eq_true] at hn
        rw [walkEvts_cons_leaf hn]
        cases hcb : cb s (dir ++ n) with
        | mk s' rr =>
          cases rr with
          | some e =>
            have hsc : drainCb dir cb (f, q0, s) n = ((false, q0, s'), some e) := by
              rw [drainCb_leaf dir cb hn, hcb]
            rw [consume_cons_emit_err hsc evs, consume_cons_leaf_err hcb
              (walkEvts dir evs)]
            exact ⟨by rw [walkEvts_cons_leaf hn]; rfl, rfl, rfl, by simp⟩
          | none =>
            have hsc : drainCb dir cb (f, q0, s) n = ((false, q0, s'), none) := by
              rw [drainCb_leaf dir cb hn, hcb]
            obtain ⟨ih1, ih2, ih3, ih4⟩ := ih false q0 s' hrest
            rw [consume_cons_emit_ok hsc evs, consume_cons_leaf_ok hcb
              (walkEvts dir evs), pushDirs_cons_leaf hn]
            refine ⟨by rw [walkEvts_cons_leaf hn, ih1], ih2, ih3, fun hno => ?_⟩
            obtain ⟨h1, h2, h3⟩ := ih4 hno
            refine ⟨h1, by rw [h2], ?_⟩
            rw [h3]
            simp [isEmitEv]

theorem consume_none_full {σ ε : Type} (cb : σ → GoStr → σ × Option ε) :
    ∀ (evs : List Event) (s : σ),
      (consume cb s evs).2.2 = none → (consume cb s evs).1 = evs := by
  intro evs
  induction evs with
  | nil => intro s _; rfl
  | cons ev evs ih =>
    intro s h
    cases hev : emitStr ev with
    | none =>
      simp only [consume, hev] at h ⊢
      rw [ih s h]
    | some n =>
      cases hcb : cb s n with
      | mk s' r =>
        cases r with
        | some e => simp [consume, hev, hcb] at h
        | none =>
          simp only [consume, hev, hcb] at h ⊢
          rw [ih s' h]

theorem iterate_eq_consume2 {σ ε : Type} (B : Backend ε)
    (cb : σ → GoStr → σ × Option ε) (pageFuel : Nat) (remotePath : GoStr)
    (s : σ) :
    iterateStoragePaths B cb pageFuel remotePath s =
      ((consume cb s (iterateStoragePaths B (pureCb (ε := ε)) pageFuel remotePath ()).1).1,
        (consume cb s (iterateStoragePaths B (pureCb (ε := ε)) pageFuel remotePath ()).1).2.1,
        combineOutcome
          (consume cb s (iterateStoragePaths B (pureCb (ε := ε)) pageFuel remotePath ()).1).2.2
          (iterateStoragePaths B (pureCb (ε := ε)) pageFuel remotePath ()).2.2) :=
  iterate_eq_consume B cb pageFuel remotePath s

theorem drainLoop_eq_consume {σ ε : Type} (B : Backend ε)
    (cb : σ → GoStr → σ × Option ε) (pf : Nat) :
    ∀ (qf : Nat) (q : List GoStr) (s : σ),
      drainLoop B cb pf qf q s =
        ((consume cb s (drainLoop B (pureCb (ε := ε)) pf qf q ()).1).1,
          (consume cb s (drainLoop B (pureCb (ε := ε)) pf qf q ()).1).2.1,
          combineOutcome
            (consume cb s (drainLoop B (pureCb (ε := ε)) pf qf q ()).1).2.2
            (drainLoop B (pureCb (ε := ε)) pf qf q ()).2.2) := by
  intro qf
  induction qf with
  | zero =>
    intro q s
    by_cases hq : q.isEmpty
    · simp only [drainLoop, hq, if_pos, consume, combineOutcome]
    · simp only [drainLoop, hq, Bool.false_eq_true, if_false, consume,
        combineOutcome]
  | succ qf ih =>
    intro q s
    cases hql : q.getLast? with
    | none => simp only [drainLoop, hql, consume, combineOutcome]
    | some d =>
      have hallE : ∀ ev ∈ (iterateStoragePaths B (pureCb (ε := ε)) pf d ()).1,
          CallEmit ev :=
        fun ev h => iterate_events_shape B (pureCb (ε := ε)) pf d () ev h
      obtain ⟨cF1, cF2, cF3, cF4⟩ :=
        consume_drainCb d cb (iterateStoragePaths B (pureCb (ε := ε)) pf d ()).1
          true q.dropLast s hallE
      obtain ⟨pF1, pF2, pF3, pF4⟩ :=
        consume_drainCb d (pureCb (ε := ε))
          (iterateStoragePaths B (pureCb (ε := ε)) pf d ()).1
          true q.dropLast () hallE
      rw [consume_pure] at pF3
      obtain ⟨pQ, pEv, pFl⟩ := pF4 pF3
      rcases hR : iterateStoragePaths B (drainCb d cb) pf d
        (true, q.dropLast, s) with ⟨Ev, ⟨fC, qC, sC⟩, ocC⟩
      rcases hP : iterateStoragePaths B (drainCb d (pureCb (ε := ε))) pf d
        (true, q.dropLast, ()) with ⟨EvP, ⟨fP, qP, sP⟩, ocP⟩
      have hRf := iterate_eq_consume2 B (drainCb d cb) pf d (true, q.dropLast, s)
      rw [hR] at hRf
      have hPf := iterate_eq_consume2 B (drainCb d (pureCb (ε := ε))) pf d
        (true, q.dropLast, ())
      rw [hP] at hPf
      simp only [Prod.mk.injEq] at hRf hPf
      obtain ⟨hEv, hStC, hOcC⟩ := hRf
      obtain ⟨hEvP, hStP, hOcP⟩ := hPf
      have hfC : fC = (consume (drainCb d cb) (true, q.dropLast, s)
          (iterateStoragePaths B (pureCb (ε := ε)) pf d ()).1).2.1.1 := by
        rw [← hStC]
      have hqC : qC = (consume (drainCb d cb) (true, q.dropLast, s)
          (iterateStoragePaths B (pureCb (ε := ε)) pf d ()).1).2.1.2.1 := by
        rw [← hStC]
      have hsC : sC = (consume (drainCb d cb) (true, q.dropLast, s)
          (iterateStoragePaths B (pureCb (ε := ε)) pf d ()).1).2.1.2.2 := by
        rw [← hStC]
      have hEvPE : EvP = (iterateStoragePaths B (pureCb (ε := ε)) pf d ()).1 := by
        rw [hEvP, pEv]
      have hqP : qP = pushDirs d q.dropLast
          (iterateStoragePaths B (pureCb (ε := ε)) pf d ()).1 := by
        have : qP = (consume (drainCb d (pureCb (ε := ε))) (true, q.dropLast, ())
            (iterateStoragePaths B (pureCb (ε := ε)) pf d ()).1).2.1.2.1 := by
          rw [← hStP]
        rw [this, pQ]
      have hfP : fP = (true && !(iterateStoragePaths B (pureCb (ε := ε))
          pf d ()).1.any isEmitEv) := by
        have : fP = (consume (drainCb d (pureCb (ε := ε))) (true, q.dropLast, ())
            (iterateStoragePaths B (pureCb (ε := ε)) pf d ()).1).2.1.1 := by
          rw [← hStP]
        rw [this, pFl]
      have hOcPO : ocP = (iterateStoragePaths B (pureCb (ε := ε)) pf d ()).2.2 := by
        rw [hOcP, pF3]
        rfl
      subst hEv
      subst hfC
      subst hqC
      subst hsC
      subst hEvPE
      subst hqP
      subst hfP
      subst hOcC
      subst hOcPO
      simp only [drainLoop, hql, hR, hP, pureCb]
      rw [cF1, cF2, cF3]
      cases hO : (iterateStoragePaths B (pureCb (ε := ε)) pf d ()).2.2 with
      | err e =>
        cases (consume cb s (walkEvts d
          (iterateStoragePaths B (pureCb (ε := ε)) pf d ()).1)).2.2 <;> rfl
      | spin =>
        cases (consume cb s (walkEvts d
          (iterateStoragePaths B (pureCb (ε := ε)) pf d ()).1)).2.2 <;> rfl
      | ok =>
        cases hcc : (consume cb s (walkEvts d
            (iterateStoragePaths B (pureCb (ε := ε)) pf d ()).1)).2.2 with
        | some e =>
          by_cases hcond : (true &&
              !(iterateStoragePaths B (pureCb (ε := ε)) pf d ()).1.any isEmitEv &&
              List.isEmpty (splitBucketPfx d).2) = true
          · simp only [hcond, if_pos, consume_append, hcc, combineOutcome]
          · simp only [hcond, Bool.false_eq_true, if_false, consume_append, hcc,
              combineOutcome]
        | none =>
          obtain ⟨hq4, hev4, hfl4⟩ := cF4 (by rw [cF3, hcc])
          have hfull : (consume cb s (walkEvts d
              (iterateStoragePaths B (pureCb (ε := ε)) pf d ()).1)).1 =
              walkEvts d (iterateStoragePaths B (pureCb (ε := ε)) pf d ()).1 :=
            consume_none_full cb _ s hcc
          rw [hq4, hfl4]
          by_cases hcond : (true &&
              !(iterateStoragePaths B (pureCb (ε := ε)) pf d ()).1.any isEmitEv &&
              List.isEmpty (splitBucketPfx d).2) = true
          · rw [if_pos hcond, if_pos hcond]
            cases hm : cb (consume cb s (walkEvts d
                (iterateStoragePaths B (pureCb (ε := ε)) pf d ()).1)).2.1
                ((splitBucketPfx d).1 ++ ['/']) with
            | mk sM rM =>
              cases rM with
              | some e =>
                simp only [combineOutcome, consume_append, hcc, hfull,
                  consume_cons_marker_err hm, hm]
              | none =>
                simp only [combineOutcome, consume_append, hcc, hfull,
                  consume_cons_marker_ok hm, hm, ih]
          · rw [if_neg hcond, if_neg hcond]
            simp only [combineOutcome, consume_append, hcc, hfull, ih]

/-- Any run of the recursive walk is the replay of the pure walk's
event stream against its callback, stopping at the first callback
error; a callback error overrides the pure outcome. -/
theorem iterateAll_eq_consume {σ ε : Type} (B : Backend ε)
    (cb : σ → GoStr → σ × Option ε) (pf qf : Nat) (remotePath : GoStr)
    (s : σ) :
    iterateStoragePathsAll B cb pf qf remotePath s =
      ((consume cb s (iterateStoragePathsAll B (pureCb (ε := ε)) pf qf remotePath ()).1).1,
        (consume cb s (iterateStoragePathsAll B (pureCb (ε := ε)) pf qf remotePath ()).1).2.1,
        combineOutcome
          (consume cb s (iterateStoragePathsAll B (pureCb (ε := ε)) pf qf remotePath ()).1).2.2
          (iterateStoragePathsAll B (pureCb (ε := ε)) pf qf remotePath ()).2.2) := by
  have hallE : ∀ ev ∈ (iterateStoragePaths B (pureCb (ε := ε)) pf remotePath ()).1,
      CallEmit ev :=
    fun ev h => iterate_events_shape B (pureCb (ε := ε)) pf remotePath () ev h
  set base := if endsSlash remotePath then remotePath else pathSplitDir remotePath
    with hbase
  obtain ⟨cF1, cF2, cF3, cF4⟩ :=
    consume_seedCb base cb (iterateStoragePaths B (pureCb (ε := ε)) pf remotePath ()).1
      [] s hallE
  obtain ⟨pF1, pF2, pF3, pF4⟩ :=
    consume_seedCb base (pureCb (ε := ε))
      (iterateStoragePaths B (pureCb (ε := ε)) pf remotePath ()).1 [] () hallE
  rw [consume_pure] at pF3
  obtain ⟨pQ, pEv⟩ := pF4 pF3
  rcases hR : iterateStoragePaths B (seedCb base cb) pf remotePath
    ([], s) with ⟨Ev, ⟨qC, sC⟩, ocC⟩
  rcases hP : iterateStoragePaths B (seedCb base (pureCb (ε := ε))) pf remotePath
    ([], ()) with ⟨EvP, ⟨qP, sP⟩, ocP⟩
  have hRf := iterate_eq_consume2 B (seedCb base cb) pf remotePath ([], s)
  rw [hR] at hRf
  have hPf := iterate_eq_consume2 B (seedCb base (pureCb (ε := ε))) pf remotePath
    ([], ())
  rw [hP] at hPf
  simp only [Prod.mk.injEq] at hRf hPf
  obtain ⟨hEv, hStC, hOcC⟩ := hRf
  obtain ⟨hEvP, hStP, hOcP⟩ := hPf
  have hqC : qC = (consume (seedCb base cb) ([], s)
      (iterateStoragePaths B (pureCb (ε := ε)) pf remotePath ()).1).2.1.1 := by
    rw [← hStC]
  have hsC : sC = (consume (seedCb base cb) ([], s)
      (iterateStoragePaths B (pureCb (ε := ε)) pf remotePath ()).1).2.1.2 := by
    rw [← hStC]
  have hEvPE : EvP = (iterateStoragePaths B (pureCb (ε := ε)) pf remotePath ()).1 := by
    rw [hEvP, pEv]
  have hqP : qP = pushDirs base []
      (iterateStoragePaths B (pureCb (ε := ε)) pf remotePath ()).1 := by
    have h : qP = (consume (seedCb base (pureCb (ε := ε))) ([], ())
        (iterateStoragePaths B (pureCb (ε := ε)) pf remotePath ()).1).2.1.1 := by
      rw [← hStP]
    rw [h, pQ]
  have hOcPO : ocP = (iterateStoragePaths B (pureCb (ε := ε)) pf remotePath ()).2.2 := by
    rw [hOcP, pF3]
    rfl
  subst hEv
  subst hqC
  subst hsC
  subst hEvPE
  subst hqP
  subst hOcC
  subst hOcPO
  simp only [iterateStoragePathsAll, ← hbase, hR, hP]
  rw [cF1, cF2, cF3]
  cases hO : (iterateStoragePaths B (pureCb (ε := ε)) pf remotePath ()).2.2 with
  | err e =>
    cases (consume cb s (walkEvts base
      (iterateStoragePaths B (pureCb (ε := ε)) pf remotePath ()).1)).2.2 <;> rfl
  | spin =>
    cases (consume cb s (walkEvts base
      (iterateStoragePaths B (pureCb (ε := ε)) pf remotePath ()).1)).2.2 <;> rfl
  | ok =>
    cases hcc : (consume cb s (walkEvts base
        (iterateStoragePaths B (pureCb (ε := ε)) pf remotePath ()).1)).2.2 with
    | some e =>
      simp only [combineOutcome, consume_append, hcc]
    | none =>
      obtain ⟨hq4, hev4⟩ := cF4 (by rw [cF3, hcc])
      have hfull : (consume cb s (walkEvts base
          (iterateStoragePaths B (pureCb (ε := ε)) pf remotePath ()).1)).1 =
          walkEvts base (iterateStoragePaths B (pureCb (ε := ε)) pf remotePath ()).1 :=
        consume_none_full cb _ s hcc
      rw [hq4]
      simp only [combineOutcome, consume_append, hcc, hfull,
        drainLoop_eq_consume B cb pf qf]

/-!
### The bucket-listing branch and pagination (C5, C6)
-/

theorem emitAll_collect {ε : Type} :
    ∀ (names : List GoStr) (s : List GoStr),
      emitAll (collect (ε := ε)) s names =
        (names.map Event.emit, s ++ names, none) := by
  intro names
  induction names with
  | nil => intro s; simp [emitAll]
  | cons n ns ih =>
    intro s
    simp only [emitAll, collect, ih, List.map_cons, List.append_assoc,
      List.singleton_append]

/-- The pure single-level run in the bucket-listing branch: one
`listBuckets` call followed by the filtered bucket names. -/
theorem iterate_pure_bucket_events {ε : Type} (B : Backend ε) (pf : Nat)
    (path : GoStr) (bs : List GoStr)
    (hcond : ((splitBucketPfx path).1.isEmpty ||
      ((splitBucketPfx path).2.isEmpty && !endsSlash path)) = true)
    (hbk : B.listBuckets = .ok bs) :
    iterateStoragePaths B (pureCb (ε := ε)) pf path () =
      (.call .buckets ::
        (((bs.filter fun b => (splitBucketPfx path).1.isPrefixOf b).map
          fun b => b ++ ['/']).map Event.emit), (), .ok) := by
  simp only [iterateStoragePaths, hcond, if_pos, hbk, emitAll_pure]

/-- C6: whenever the bucket component is empty, or the prefix
component is empty and the remote path does not end in '/', the
single-level listing performs exactly one `listBuckets` backend call
and no `listObjects` call, and delivers, in backend order, exactly
those buckets whose names start with the (possibly empty) bucket
string, each suffixed with "/". -/
theorem bucket_listing_branch {ε : Type} (B : Backend ε) (pf : Nat)
    (path : GoStr) (bs : List GoStr)
    (hcond : (splitBucketPfx path).1 = [] ∨
      ((splitBucketPfx path).2 = [] ∧ endsSlash path = false))
    (hbk : B.listBuckets = .ok bs) :
    iterateStoragePaths B (collect (ε := ε)) pf path [] =
      (.call .buckets ::
        (((bs.filter fun b => (splitBucketPfx path).1.isPrefixOf b).map
          fun b => b ++ ['/']).map Event.emit),
        (bs.filter fun b => (splitBucketPfx path).1.isPrefixOf b).map
          fun b => b ++ ['/'],
        .ok) := by
  have hcond' : ((splitBucketPfx path).1.isEmpty ||
      ((splitBucketPfx path).2.isEmpty && !endsSlash path)) = true := by
    rcases hcond with h | ⟨h1, h2⟩
    · simp [h]
    · simp [h1, h2]
  simp only [iterateStoragePaths, hcond', if_pos, hbk, emitAll_collect,
    List.nil_append]

/-- C6 witness: listing `ss:///al` against three buckets delivers
exactly the matching buckets, via one `listBuckets` call. -/
theorem bucket_listing_branch_witness :
    iterateStoragePaths
        (Backend.mk (ε := Nat) (.ok [gs "alpha", gs "beta", gs "alp"])
          (fun _ _ _ => .ok []) 100)
        (collect (ε := Nat)) 3 (gs "/al") [] =
      (.call .buckets :: [Event.emit (gs "alpha/"), Event.emit (gs "alp/")],
        [gs "alpha/", gs "alp/"], .ok) := by
  have h := bucket_listing_branch
    (Backend.mk (ε := Nat) (.ok [gs "alpha", gs "beta", gs "alp"])
      (fun _ _ _ => .ok []) 100)
    3 (gs "/al") [gs "alpha", gs "beta", gs "alp"]
    (Or.inr ⟨by decide, by decide⟩) rfl
  rw [h]
  rfl

/-- The delivered names of one backend page (empty for an error). -/
def pageNames {ε : Type} (B : Backend ε) (b p : GoStr) (i : Nat) : List GoStr :=
  match B.listObjects b p i with
  | .ok l => l.map objName
  | .error _ => []

/-- The expected events and outputs of fetching pages `i .. i + n` in
order: one call per page followed by its entries. -/
def expectedPages {ε : Type} (B : Backend ε) (b p : GoStr) :
    Nat → Nat → List Event × List GoStr
  | 0, i =>
    (Event.call (.objects b p i) :: (pageNames B b p i).map Event.emit,
      pageNames B b p i)
  | n + 1, i =>
    let r := expectedPages B b p n (i + 1)
    (Event.call (.objects b p i) :: (pageNames B b p i).map Event.emit ++ r.1,
      pageNames B b p i ++ r.2)

theorem expectedPages_call_mem {ε : Type} (B : Backend ε) (b p : GoStr) :
    ∀ (n i j : Nat),
      Event.call (.objects b p j) ∈ (expectedPages B b p n i).1 ↔
        (i ≤ j ∧ j ≤ i + n) := by
  intro n
  induction n with
  | zero =>
    intro i j
    simp only [expectedPages, List.mem_cons, Nat.add_zero]
    constructor
    · intro h
      rcases h with h | h
      · have : j = i := by
          have h2 : Call.objects b p j = Call.objects b p i := by
            injection h
          injection h2 with _ _ h3
        omega
      · exfalso
        obtain ⟨m, _, hm⟩ := List.mem_map.mp h
        exact absurd hm.symm (by simp)
    · intro ⟨h1, h2⟩
      have : j = i := by omega
      subst this
      exact Or.inl rfl
  | succ n ih =>
    intro i j
    simp only [expectedPages, List.mem_cons, List.mem_append]
    constructor
    · intro h
      rcases h with (h | h) | h
      · have : j = i := by
          have h2 : Call.objects b p j = Call.objects b p i := by
            injection h
          injection h2 with _ _ h3
        omega
      · exfalso
        obtain ⟨m, _, hm⟩ := List.mem_map.mp h
        exact absurd hm.symm (by simp)
      · have := (ih (i + 1) j).mp h
        omega
    · intro ⟨h1, h2⟩
      by_cases hj : j = i
      · subst hj
        exact Or.inl (Or.inl rfl)
      · refine Or.inr ((ih (i + 1) j).mpr ?_)
        omega

theorem listPages_collect_pages {ε : Type} (B : Backend ε) (b p : GoStr) :
    ∀ (n fuel i : Nat) (s : List GoStr),
      (∀ j, j < n → ∃ l, B.listObjects b p (i + j) = .ok l ∧
        l.length = B.pageLimit) →
      (∃ l, B.listObjects b p (i + n) = .ok l ∧ l.length ≠ B.pageLimit) →
      n < fuel →
      listPages B (collect (ε := ε)) b p fuel i s =
        ((expectedPages B b p n i).1, s ++ (expectedPages B b p n i).2, .ok) := by
  intro n
  induction n with
  | zero =>
    intro fuel i s _ hlast hfuel
    obtain ⟨l, hl, hlen⟩ := hlast
    rw [Nat.add_zero] at hl
    cases fuel with
    | zero => omega
    | succ fuel =>
      simp only [listPages, hl, emitAll_collect, if_neg hlen, expectedPages,
        pageNames, hl]
  | succ n ih =>
    intro fuel i s hfull hlast hfuel
    obtain ⟨l0, hl0, hlen0⟩ := hfull 0 (by omega)
    rw [Nat.add_zero] at hl0
    cases fuel with
    | zero => omega
    | succ fuel =>
      have hrec := ih fuel (i + 1) (s ++ l0.map objName)
        (fun j hj => by
          have h := hfull (j + 1) (by omega)
          rw [show i + (j + 1) = i + 1 + j by omega] at h
          exact h)
        (by
          obtain ⟨l, hl, hlen⟩ := hlast
          exact ⟨l, by rw [show i + 1 + n = i + (n + 1) by omega]; exact hl, hlen⟩)
        (by omega)
      simp only [listPages, hl0, emitAll_collect, if_pos hlen0, hrec,
        expectedPages, pageNames, hl0, List.append_assoc]

/-- C5: in the object-listing branch pages are fetched sequentially
from page 0, page `j` is queried exactly when `j ≤ n` where pages
`0 .. n-1` are full (`PAGE_LIMIT` entries) and page `n` is the first
short page, and the delivered output is the concatenation of all
fetched pages' entries in page order. -/
theorem pagination_fetches_while_full {ε : Type} (B : Backend ε) (b p : GoStr)
    (n fuel : Nat) (s : List GoStr)
    (hfull : ∀ j, j < n → ∃ l, B.listObjects b p j = .ok l ∧
      l.length = B.pageLimit)
    (hlast : ∃ l, B.listObjects b p n = .ok l ∧ l.length ≠ B.pageLimit)
    (hfuel : n < fuel) :
    listPages B (collect (ε := ε)) b p fuel 0 s =
        ((expectedPages B b p n 0).1, s ++ (expectedPages B b p n 0).2, .ok) ∧
      (∀ j, Event.call (.objects b p j) ∈
        (listPages B (collect (ε := ε)) b p fuel 0 s).1 ↔ j ≤ n) ∧
      (∀ path, splitBucketPfx path = (b, p) →
        (b.isEmpty || (p.isEmpty && !endsSlash path)) = false →
        iterateStoragePaths B (collect (ε := ε)) fuel path s =
          listPages B (collect (ε := ε)) b p fuel 0 s) := by
  have h := listPages_collect_pages B b p n fuel 0 s
    (fun j hj => by simpa using hfull j hj)
    (by simpa using hlast) hfuel
  refine ⟨h, fun j => ?_, fun path hsp hc => ?_⟩
  · rw [h]
    have h2 := expectedPages_call_mem B b p n 0 j
    constructor
    · intro hm
      exact (by omega : 0 ≤ j ∧ j ≤ 0 + n → j ≤ n) (h2.mp hm)
    · intro hj
      exact h2.mpr (by omega)
  · simp only [iterateStoragePaths, hsp, hc, Bool.false_eq_true, if_false]

/-- A two-page backend for the C5 witness: page 0 of `d/e/` is full
(`PAGE_LIMIT = 2`), page 1 is short. -/
def pagedBackend : Backend Nat where
  listBuckets := .ok []
  listObjects := fun b p i =>
    if b = gs "d" ∧ p = gs "e/" ∧ i = 0 then
      .ok [⟨gs "o1", true⟩, ⟨gs "o2", true⟩]
    else if b = gs "d" ∧ p = gs "e/" ∧ i = 1 then .ok [⟨gs "o3", true⟩]
    else .ok []
  pageLimit := 2

/-- C5 witness: with `pagedBackend` the single-level listing fetches
pages 0 and 1, delivers both pages' entries in order, and queries no
further page. -/
theorem pagination_fetches_while_full_witness :
    listPages pagedBackend (collect (ε := Nat)) (gs "d") (gs "e/") 5 0 [] =
      ([.call (.objects (gs "d") (gs "e/") 0), .emit (gs "o1"), .emit (gs "o2"),
        .call (.objects (gs "d") (gs "e/") 1), .emit (gs "o3")],
        [gs "o1", gs "o2", gs "o3"], .ok) := by
  have h := (pagination_fetches_while_full pagedBackend (gs "d") (gs "e/") 1 5 []
    (fun j hj => by
      interval_cases j
      · exact ⟨[⟨gs "o1", true⟩, ⟨gs "o2", true⟩], rfl, by decide⟩)
    ⟨[⟨gs "o3", true⟩], rfl, by decide⟩
    (by omega)).1
  rw [h]
  rfl

/-- C2 (amended): when a pending directory path drained from the
queue denotes a whole bucket (non-empty bucket component, empty
prefix component) and its object listing returns zero entries, the
walk performs exactly one backend call for it and delivers the
synthetic `bucket ++ "/"` to the callback, then continues with the
rest of the queue; the synthetic result is produced only here — the
seed listing of `IterateStoragePathsAll` has no such check. -/
theorem drained_empty_bucket_emits_marker {σ ε : Type} (B : Backend ε)
    (cb : σ → GoStr → σ × Option ε) (pf qf : Nat) (q : List GoStr) (s : σ)
    (dirPath b : GoStr)
    (hsplit : splitBucketPfx dirPath = (b, []))
    (hb : b ≠ [])
    (hend : endsSlash dirPath = true)
    (hobj : B.listObjects b [] 0 = .ok [])
    (hpl : B.pageLimit ≠ 0) :
    drainLoop B cb (pf + 1) (qf + 1) (q ++ [dirPath]) s =
      (match (cb s (b ++ ['/'])).2 with
       | some e =>
         ([.call (.objects b [] 0), .marker (b ++ ['/'])],
           (cb s (b ++ ['/'])).1, .err e)
       | none =>
         (.call (.objects b [] 0) :: .marker (b ++ ['/']) ::
           (drainLoop B cb (pf + 1) qf q (cb s (b ++ ['/'])).1).1,
           (drainLoop B cb (pf + 1) qf q (cb s (b ++ ['/'])).1).2)) := by
  have hbe : b.isEmpty = false := by
    cases b with
    | nil => exact absurd rfl hb
    | cons x xs => rfl
  have hinner : iterateStoragePaths B (drainCb dirPath cb) (pf + 1) dirPath
      (true, q, s) = ([.call (.objects b [] 0)], (true, q, s), .ok) := by
    simp only [iterateStoragePaths, hsplit, hbe, List.isEmpty_nil, hend,
      Bool.not_true, Bool.and_false, Bool.or_false, Bool.false_eq_true,
      if_false, listPages, hobj, emitAll, List.map_nil, List.length_nil]
    rw [if_neg (fun hx : 0 = B.pageLimit => hpl hx.symm)]
  simp only [drainLoop, List.getLast?_concat, List.dropLast_concat, hinner,
    hsplit, List.isEmpty_nil, Bool.and_true, walkEvts]
  cases hm : cb s (b ++ ['/']) with
  | mk s1 r1 =>
    cases r1 with
    | some e => rfl
    | none => rfl

/-- C2 witness: draining the queued path `/b/` of the empty bucket
"b" performs one backend call and delivers exactly the synthetic
`b/`. -/
theorem drained_empty_bucket_emits_marker_witness :
    drainLoop emptyBucketBackend (collect (ε := Nat)) 4 4 ([] ++ [gs "/b/"]) [] =
      ([.call (.objects (gs "b") [] 0), .marker (gs "b/")], [gs "b/"], .ok) := by
  have h := drained_empty_bucket_emits_marker emptyBucketBackend
    (collect (ε := Nat)) 3 3 [] [] (gs "/b/") (gs "b")
    (by decide) (by decide) (by decide) rfl (by decide)
  rw [h]
  rfl

/-- C9: when a pending directory path drained from the queue has a
non-empty prefix component, an empty object listing for it produces
no output at all: the step contributes exactly the one backend call
and neither invokes the callback nor changes the walk state. -/
theorem drained_empty_prefix_is_silent {σ ε : Type} (B : Backend ε)
    (cb : σ → GoStr → σ × Option ε) (pf qf : Nat) (q : List GoStr) (s : σ)
    (dirPath b p : GoStr)
    (hsplit : splitBucketPfx dirPath = (b, p))
    (hb : b ≠ [])
    (hp : p ≠ [])
    (hobj : B.listObjects b p 0 = .ok [])
    (hpl : B.pageLimit ≠ 0) :
    drainLoop B cb (pf + 1) (qf + 1) (q ++ [dirPath]) s =
      (.call (.objects b p 0) :: (drainLoop B cb (pf + 1) qf q s).1,
        (drainLoop B cb (pf + 1) qf q s).2) := by
  have hbe : b.isEmpty = false := by
    cases b with
    | nil => exact absurd rfl hb
    | cons x xs => rfl
  have hpe : p.isEmpty = false := by
    cases p with
    | nil => exact absurd rfl hp
    | cons x xs => rfl
  have hinner : iterateStoragePaths B (drainCb dirPath cb) (pf + 1) dirPath
      (true, q, s) = ([.call (.objects b p 0)], (true, q, s), .ok) := by
    simp only [iterateStoragePaths, hsplit, hbe, hpe, Bool.false_and,
      Bool.or_false, Bool.false_eq_true, if_false, listPages, hobj, emitAll,
      List.map_nil, List.length_nil]
    rw [if_neg (fun hx : 0 = B.pageLimit => hpl hx.symm)]
  simp only [drainLoop, List.getLast?_concat, List.dropLast_concat, hinner,
    hsplit, hpe, Bool.and_false, Bool.false_eq_true, if_false, walkEvts,
    List.singleton_append]

/-- C9 witness: walking `ss:///c/` where bucket "c" holds `a.txt` and
an empty folder `sub/` delivers only `/c/a.txt`; the listing of
`c/sub/` produces no output and no `c/sub/` marker. -/
theorem drained_empty_prefix_is_silent_witness :
    drainLoop emptySubBackend (collect (ε := Nat)) 4 4 ([] ++ [gs "/c/sub/"]) [] =
        (.call (.objects (gs "c") (gs "sub/") 0) ::
          (drainLoop emptySubBackend (collect (ε := Nat)) 4 3 [] []).1,
          (drainLoop emptySubBackend (collect (ε := Nat)) 4 3 [] []).2) ∧
      (iterateStoragePathsAll emptySubBackend (collect (ε := Nat)) 4 8
          (gs "/c/") []).2.1 = [gs "/c/a.txt"] ∧
      (iterateStoragePathsAll emptySubBackend (collect (ε := Nat)) 4 8
          (gs "/c/") []).1 =
        [.call (.objects (gs "c") [] 0), .leaf (gs "/c/a.txt"),
          .call (.objects (gs "c") (gs "sub/") 0)] := by
  refine ⟨?_, rfl, rfl⟩
  exact drained_empty_prefix_is_silent emptySubBackend (collect (ε := Nat))
    3 3 [] [] (gs "/c/sub/") (gs "c") (gs "sub/")
    (by decide) (by decide) (by decide) rfl (by decide)

/-!
### Leading slashes of walk deliveries (C10)
-/

theorem splitOnFirstSlash_some_of_mem {r : GoStr} (h : '/' ∈ r) :
    ∃ ab, splitOnFirstSlash r = some ab := by
  induction r with
  | nil => simp at h
  | cons c cs ih =>
    rw [splitOnFirstSlash_cons]
    by_cases hc : c = '/'
    · exact ⟨_, by rw [if_pos hc]⟩
    · rw [if_neg hc]
      have hm : '/' ∈ cs := by
        rcases List.mem_cons.mp h with h1 | h1
        · exact absurd h1.symm hc
        · exact h1
      obtain ⟨⟨a, b⟩, hab⟩ := ih hm
      exact ⟨(c :: a, b), by rw [hab]⟩

theorem splitBucketPfx_fst_no_slash (d : GoStr) : '/' ∉ (splitBucketPfx d).1 := by
  rw [splitBucketPfx_spec]
  by_cases h0 : d = [] ∨ d = ['/']
  · simp [h0]
  · rw [if_neg h0]
    intro hm
    have := List.mem_takeWhile_imp hm
    simp at this

theorem splitBucketPfx_both_nil {d : GoStr}
    (h : splitBucketPfx d = ([], [])) :
    d = [] ∨ d = ['/'] ∨ d = ['/', '/'] := by
  by_cases h0 : d = [] ∨ d = ['/']
  · rcases h0 with h0 | h0
    · exact Or.inl h0
    · exact Or.inr (Or.inl h0)
  · rw [splitBucketPfx_spec, if_neg h0] at h
    have h1 : (if d.head? = some '/' then d.tail else d).takeWhile
        (fun c => c != '/') = [] := congrArg Prod.fst h
    have h2 : ((if d.head? = some '/' then d.tail else d).dropWhile
        (fun c => c != '/')).drop 1 = [] := congrArg Prod.snd h
    have hrs : (if d.head? = some '/' then d.tail else d) = [] ∨
        (if d.head? = some '/' then d.tail else d) = ['/'] := by
      cases hr : (if d.head? = some '/' then d.tail else d) with
      | nil => exact Or.inl rfl
      | cons c cs =>
        rw [hr] at h1 h2
        rw [List.takeWhile_cons] at h1
        by_cases hc : (c != '/') = true
        · rw [if_pos hc] at h1
          exact absurd h1 (by simp)
        · have hc' : c = '/' := by
            rw [Bool.not_eq_true, bne_eq_false_iff_eq] at hc
            exact hc
          subst hc'
          rw [List.dropWhile_cons] at h2
          simp only [bne_self_eq_false, Bool.false_eq_true, if_false,
            List.drop_succ_cons, List.drop_zero] at h2
          subst h2
          exact Or.inr rfl
    by_cases hh : d.head? = some '/'
    · rw [if_pos hh] at hrs
      cases d with
      | nil => simp at hh
      | cons c cs =>
        simp only [List.head?_cons, Option.some.injEq] at hh
        simp only [List.tail_cons] at hrs
        subst hh
        rcases hrs with h3 | h3
        · subst h3
          exact absurd (Or.inr rfl) h0
        · subst h3
          exact Or.inr (Or.inr rfl)
    · rw [if_neg hh] at hrs
      rcases hrs with h3 | h3
      · exact Or.inl h3
      · exact absurd (Or.inr h3) h0

theorem endsSlash_ne_nil {n : GoStr} (h : endsSlash n = true) : n ≠ [] := by
  intro hn
  rw [hn] at h
  simp [endsSlash] at h

theorem head?_append_left {d n : GoStr} (h : d ≠ []) :
    (d ++ n).head? = d.head? := by
  cases d with
  | nil => exact absurd rfl h
  | cons c cs => rfl

theorem walkEvts_mem {d : GoStr} :
    ∀ (evs : List Event), (∀ e ∈ evs, CallEmit e) →
      ∀ ev ∈ walkEvts d evs,
        (∃ c, ev = .call c) ∨
          ∃ n, Event.emit n ∈ evs ∧ endsSlash n = false ∧ ev = .leaf (d ++ n) := by
  intro evs
  induction evs with
  | nil => intro _ ev h; simp [walkEvts] at h
  | cons e0 evs ih =>
    intro hall ev hmem
    have hrest : ∀ e ∈ evs, CallEmit e := fun e he => hall e (by simp [he])
    rcases hall e0 (by simp) with ⟨c, rfl⟩ | ⟨n, rfl⟩
    · rw [walkEvts_cons_call] at hmem
      rcases List.mem_cons.mp hmem with h | h
      · exact Or.inl ⟨c, h⟩
      · rcases ih hrest ev h with h1 | ⟨n, hn1, hn2, hn3⟩
        · exact Or.inl h1
        · exact Or.inr ⟨n, by simp [hn1], hn2, hn3⟩
    · by_cases hn : endsSlash n = true
      · rw [walkEvts_cons_dir hn] at hmem
        rcases ih hrest ev hmem with h1 | ⟨m, hm1, hm2, hm3⟩
        · exact Or.inl h1
        · exact Or.inr ⟨m, by simp [hm1], hm2, hm3⟩
      · rw [Bool.not_eq_true] at hn
        rw [walkEvts_cons_leaf hn] at hmem
        rcases List.mem_cons.mp hmem with h | h
        · exact Or.inr ⟨n, by simp, hn, h⟩
        · rcases ih hrest ev h with h1 | ⟨m, hm1, hm2, hm3⟩
          · exact Or.inl h1
          · exact Or.inr ⟨m, by simp [hm1], hm2, hm3⟩

theorem pushDirs_mem {base : GoStr} :
    ∀ (evs : List Event) (q : List GoStr) (x : GoStr),
      x ∈ pushDirs base q evs →
      x ∈ q ∨ ∃ n, Event.emit n ∈ evs ∧ endsSlash n = true ∧ x = base ++ n := by
  intro evs
  induction evs with
  | nil => intro q x h; exact Or.inl h
  | cons e0 evs ih =>
    intro q x h
    cases e0 with
    | emit n =>
      by_cases hn : endsSlash n = true
      · rw [pushDirs_cons_dir hn] at h
        rcases ih (q ++ [base ++ n]) x h with h1 | ⟨m, hm1, hm2, hm3⟩
        · rcases List.mem_append.mp h1 with h2 | h2
          · exact Or.inl h2
          · exact Or.inr ⟨n, by simp, hn, List.mem_singleton.mp h2⟩
        · exact Or.inr ⟨m, by simp [hm1], hm2, hm3⟩
      · rw [Bool.not_eq_true] at hn
        rw [pushDirs_cons_leaf hn] at h
        rcases ih q x h with h1 | ⟨m, hm1, hm2, hm3⟩
        · exact Or.inl h1
        · exact Or.inr ⟨m, by simp [hm1], hm2, hm3⟩
    | call c =>
      rw [pushDirs_cons_call] at h
      rcases ih q x h with h1 | ⟨m, hm1, hm2, hm3⟩
      · exact Or.inl h1
      · exact Or.inr ⟨m, by simp [hm1], hm2, hm3⟩
    | leaf n =>
      rcases ih q x h with h1 | ⟨m, hm1, hm2, hm3⟩
      · exact Or.inl h1
      · exact Or.inr ⟨m, by simp [hm1], hm2, hm3⟩
    | marker n =>
      rcases ih q x h with h1 | ⟨m, hm1, hm2, hm3⟩
      · exact Or.inl h1
      · exact Or.inr ⟨m, by simp [hm1], hm2, hm3⟩

/-- Invariant of the walk's pending-directory queue: every queued
path starts with '/', has at least two characters, and can be the
degenerate path "//" only when the backend actually reports a bucket
with an empty name. -/
def QInv {ε : Type} (B : Backend ε) (x : GoStr) : Prop :=
  x.head? = some '/' ∧ 2 ≤ x.length ∧
    (x = ['/', '/'] → ∃ l, B.listBuckets = .ok l ∧ [] ∈ l)

theorem pushDirs_QInv {ε : Type} (B : Backend ε) {d : GoStr} (hd : QInv B d)
    (evs : List Event) (q : List GoStr) (hq : ∀ x ∈ q, QInv B x) :
    ∀ x ∈ pushDirs d q evs, QInv B x := by
  intro x hx
  rcases pushDirs_mem evs q x hx with h | ⟨n, _, hn, rfl⟩
  · exact hq x h
  · have hdne : d ≠ [] := by
      intro hdd
      have h2 := hd.2.1
      rw [hdd] at h2
      simp only [List.length_nil] at h2
      omega
    have hnne : n ≠ [] := endsSlash_ne_nil hn
    have hdl : 2 ≤ d.length := hd.2.1
    have hnl : 1 ≤ n.length := by
      cases n with
      | nil => exact absurd rfl hnne
      | cons c cs => simp
    refine ⟨by rw [head?_append_left hdne]; exact hd.1, ?_, ?_⟩
    · rw [List.length_append]
      omega
    · intro hxx
      exfalso
      have : (d ++ n).length = 2 := by rw [hxx]; rfl
      rw [List.length_append] at this
      omega

theorem pathSplitDir_ne_nil {cs : GoStr} (h : '/' ∈ cs) :
    pathSplitDir cs ≠ [] := by
  induction cs with
  | nil => simp at h
  | cons c cs ih =>
    rw [pathSplitDir]
    by_cases hc : cs.contains '/'
    · rw [if_pos hc]
      simp
    · have hcc : c = '/' := by
        rcases List.mem_cons.mp h with h1 | h1
        · exact h1.symm
        · exact absurd (List.elem_eq_true_of_mem h1) (by simpa using hc)
      rw [if_neg hc, if_pos hcc]
      simp

theorem pathSplitDir_eq_slash {cs : GoStr}
    (h : pathSplitDir ('/' :: cs) = ['/']) : '/' ∉ cs := by
  intro hm
  rw [pathSplitDir] at h
  have hc : cs.contains '/' = true := List.elem_eq_true_of_mem hm
  rw [if_pos hc] at h
  have : pathSplitDir cs = [] := by
    injection h
  exact pathSplitDir_ne_nil hm this

theorem bucket_branch_emit_name {ε : Type} (B : Backend ε) (pf : Nat)
    (path : GoStr) {n : GoStr}
    (hcond : ((splitBucketPfx path).1.isEmpty ||
      ((splitBucketPfx path).2.isEmpty && !endsSlash path)) = true)
    (hmem : Event.emit n ∈ (iterateStoragePaths B (pureCb (ε := ε)) pf path ()).1) :
    ∃ bs b', B.listBuckets = .ok bs ∧ b' ∈ bs ∧
      (splitBucketPfx path).1.isPrefixOf b' = true ∧ n = b' ++ ['/'] := by
  cases hbk : B.listBuckets with
  | error e =>
    have herr : iterateStoragePaths B (pureCb (ε := ε)) pf path () =
        ([.call .buckets], (), .err e) := by
      simp only [iterateStoragePaths, hcond, if_pos, hbk]
    rw [herr] at hmem
    simp at hmem
  | ok bs =>
    rw [iterate_pure_bucket_events B pf path bs hcond hbk] at hmem
    rcases List.mem_cons.mp hmem with h | h
    · exact absurd h (by simp)
    · obtain ⟨m, hm1, hm2⟩ := List.mem_map.mp h
      obtain ⟨b', hb'1, hb'2⟩ := List.mem_map.mp hm1
      have hmf := List.mem_filter.mp hb'1
      refine ⟨bs, b', rfl, hmf.1, hmf.2, ?_⟩
      have : m = n := by injection hm2
      rw [← this, ← hb'2]

theorem append_slash_eq_slash {b : GoStr} (h : (['/'] : GoStr) = b ++ ['/']) :
    b = [] := by
  cases b with
  | nil => rfl
  | cons x xs =>
    have := congrArg List.length h
    simp at this

theorem seed_slash_name {ε : Type} (B : Backend ε) (pf : Nat) (path : GoStr)
    (hpath : path.head? = some '/')
    (hbase : (if endsSlash path then path else pathSplitDir path) = ['/'])
    (hmem : Event.emit ['/'] ∈
      (iterateStoragePaths B (pureCb (ε := ε)) pf path ()).1) :
    ∃ l, B.listBuckets = .ok l ∧ [] ∈ l := by
  obtain ⟨c, cs, rfl⟩ : ∃ c cs, path = c :: cs := by
    cases path with
    | nil => simp at hpath
    | cons c cs => exact ⟨c, cs, rfl⟩
  have hc : c = '/' := by simpa using hpath
  subst hc
  by_cases hend : endsSlash ('/' :: cs) = true
  · rw [if_pos hend] at hbase
    have hcs : cs = [] := by injection hbase
    subst hcs
    have hcond : ((splitBucketPfx ['/']).1.isEmpty ||
        ((splitBucketPfx ['/']).2.isEmpty && !endsSlash ['/'])) = true := by
      decide
    obtain ⟨bs, b', hbk, hb'mem, _, heq⟩ :=
      bucket_branch_emit_name B pf ['/'] hcond hmem
    have hb' : b' = [] := append_slash_eq_slash heq
    rw [hb'] at hb'mem
    exact ⟨bs, hbk, hb'mem⟩
  · rw [if_neg hend] at hbase
    have hnos : '/' ∉ cs := pathSplitDir_eq_slash hbase
    have hcsne : cs ≠ [] := by
      intro h
      subst h
      exact hend (by decide)
    have hsplit : splitBucketPfx ('/' :: cs) = (cs, []) := by
      rw [splitBucketPfx_spec]
      have h0 : ¬(('/' :: cs : GoStr) = [] ∨ ('/' :: cs : GoStr) = ['/']) := by
        intro h
        rcases h with h | h
        · simp at h
        · rw [List.cons.injEq] at h
          exact hcsne h.2
      rw [if_neg h0]
      obtain ⟨t1, t2⟩ := takeWhile_no_slash hnos
      simp [t1, t2]
    have hcond : ((splitBucketPfx ('/' :: cs)).1.isEmpty ||
        ((splitBucketPfx ('/' :: cs)).2.isEmpty && !endsSlash ('/' :: cs))) = true := by
      rw [hsplit]
      rw [Bool.not_eq_true] at hend
      simp [hend]
    obtain ⟨bs, b', hbk, hb'mem, hpre, heq⟩ :=
      bucket_branch_emit_name B pf ('/' :: cs) hcond hmem
    have hb' : b' = [] := append_slash_eq_slash heq
    rw [hb', hsplit] at hpre
    exfalso
    cases cs with
    | nil => exact hcsne rfl
    | cons x xs => simp [List.isPrefixOf] at hpre

theorem seedQueue_QInv {ε : Type} (B : Backend ε) (pf : Nat) (path : GoStr)
    (hpath : path.head? = some '/') :
    ∀ x ∈ pushDirs (if endsSlash path then path else pathSplitDir path) []
      (iterateStoragePaths B (pureCb (ε := ε)) pf path ()).1, QInv B x := by
  have hbase : (if endsSlash path then path else pathSplitDir path).head? =
      some '/' := by
    by_cases hend : endsSlash path = true
    · rw [if_pos hend]
      exact hpath
    · rw [if_neg hend]
      obtain ⟨c, cs, rfl⟩ : ∃ c cs, path = c :: cs := by
        cases path with
        | nil => simp at hpath
        | cons c cs => exact ⟨c, cs, rfl⟩
      have hc : c = '/' := by simpa using hpath
      subst hc
      rw [pathSplitDir]
      by_cases hcc : cs.contains '/'
      · rw [if_pos hcc]
        rfl
      · rw [if_neg hcc, if_pos rfl]
        rfl
  have hbne : (if endsSlash path then path else pathSplitDir path) ≠ [] := by
    intro h
    rw [h] at hbase
    simp at hbase
  intro x hx
  rcases pushDirs_mem _ _ x hx with h | ⟨n, hmem, hn, rfl⟩
  · simp at h
  · have hnne : n ≠ [] := endsSlash_ne_nil hn
    have hbl : 1 ≤ (if endsSlash path then path else pathSplitDir path).length := by
      cases hb : (if endsSlash path then path else pathSplitDir path) with
      | nil => exact absurd hb hbne
      | cons y ys => simp
    have hnl : 1 ≤ n.length := by
      cases n with
      | nil => exact absurd rfl hnne
      | cons y ys => simp
    refine ⟨by rw [head?_append_left hbne]; exact hbase, ?_, ?_⟩
    · rw [List.length_append]
      omega
    · intro hxx
      have hlen : (if endsSlash path then path else pathSplitDir path).length = 1 ∧
          n.length = 1 := by
        have := congrArg List.length hxx
        rw [List.length_append] at this
        simp at this
        omega
      have hbeq : (if endsSlash path then path else pathSplitDir path) = ['/'] := by
        cases hb : (if endsSlash path then path else pathSplitDir path) with
        | nil => exact absurd hb hbne
        | cons y ys =>
          rw [hb] at hbase hlen
          have hys : ys = [] := by
            have := hlen.1
            simp at this
            exact this
          have hy : y = '/' := by simpa using hbase
          rw [hy, hys]
      have hneq : n = ['/'] := by
        cases n with
        | nil => exact absurd rfl hnne
        | cons y ys =>
          have hys : ys = [] := by
            have := hlen.2
            simp at this
            exact this
          subst hys
          have : endsSlash [y] = true := hn
          simp [endsSlash] at this
          rw [this]
      rw [hneq] at hmem
      exact seed_slash_name B pf path hpath hbeq hmem

theorem bucket_filter_nil_pre {bs : List GoStr} :
    bs.filter (fun b => List.isPrefixOf ([] : GoStr) b) = bs := by
  induction bs with
  | nil => rfl
  | cons x xs ih => simp [List.filter_cons, List.isPrefixOf, ih]

theorem bucket_events_any_emit {ε : Type} (B : Backend ε) (pf : Nat)
    (path : GoStr) (bs : List GoStr)
    (hcond : ((splitBucketPfx path).1.isEmpty ||
      ((splitBucketPfx path).2.isEmpty && !endsSlash path)) = true)
    (hbk : B.listBuckets = .ok bs)
    (hne : (bs.filter fun b => (splitBucketPfx path).1.isPrefixOf b) ≠ []) :
    (iterateStoragePaths B (pureCb (ε := ε)) pf path ()).1.any isEmitEv = true := by
  rw [iterate_pure_bucket_events B pf path bs hcond hbk]
  cases hf : bs.filter fun b => (splitBucketPfx path).1.isPrefixOf b with
  | nil => exact absurd hf hne
  | cons n0 rest =>
    simp [isEmitEv]

theorem drainLoop_pure_slash {ε : Type} (B : Backend ε) (pf : Nat) :
    ∀ (qf : Nat) (q : List GoStr), (∀ x ∈ q, QInv B x) →
      ∀ ev ∈ (drainLoop B (pureCb (ε := ε)) pf qf q ()).1,
        (∀ n, ev = Event.leaf n → n.head? = some '/') ∧
        (∀ n, ev = Event.marker n → ¬n.head? = some '/') := by
  intro qf
  induction qf with
  | zero =>
    intro q hq ev hev
    by_cases hq0 : q.isEmpty = true <;> simp [drainLoop, hq0] at hev
  | succ qf ih =>
    intro q hq ev hev
    cases hql : q.getLast? with
    | none =>
      simp only [drainLoop, hql] at hev
      simp at hev
    | some d =>
      have hd := hq d (List.mem_of_mem_getLast? hql)
      have hdne : d ≠ [] := by
        intro hdd
        have h2 := hd.2.1
        rw [hdd] at h2
        simp only [List.length_nil] at h2
        omega
      have hallE : ∀ e ∈ (iterateStoragePaths B (pureCb (ε := ε)) pf d ()).1,
          CallEmit e :=
        fun e h => iterate_events_shape B (pureCb (ε := ε)) pf d () e h
      obtain ⟨pF1, pF2, pF3, pF4⟩ :=
        consume_drainCb d (pureCb (ε := ε))
          (iterateStoragePaths B (pureCb (ε := ε)) pf d ()).1
          true q.dropLast () hallE
      rw [consume_pure] at pF3
      obtain ⟨pQ, pEv, pFl⟩ := pF4 pF3
      rcases hP : iterateStoragePaths B (drainCb d (pureCb (ε := ε))) pf d
        (true, q.dropLast, ()) with ⟨EvP, ⟨fP, qP, sP⟩, ocP⟩
      have hPf := iterate_eq_consume2 B (drainCb d (pureCb (ε := ε))) pf d
        (true, q.dropLast, ())
      rw [hP] at hPf
      simp only [Prod.mk.injEq] at hPf
      obtain ⟨hEvP, hStP, hOcP⟩ := hPf
      have hEvPE : EvP = (iterateStoragePaths B (pureCb (ε := ε)) pf d ()).1 := by
        rw [hEvP, pEv]
      have hqP : qP = pushDirs d q.dropLast
          (iterateStoragePaths B (pureCb (ε := ε)) pf d ()).1 := by
        have h : qP = (consume (drainCb d (pureCb (ε := ε))) (true, q.dropLast, ())
            (iterateStoragePaths B (pureCb (ε := ε)) pf d ()).1).2.1.2.1 := by
          rw [← hStP]
        rw [h, pQ]
      have hfP : fP = (true && !(iterateStoragePaths B (pureCb (ε := ε))
          pf d ()).1.any isEmitEv) := by
        have h : fP = (consume (drainCb d (pureCb (ε := ε))) (true, q.dropLast, ())
            (iterateStoragePaths B (pureCb (ε := ε)) pf d ()).1).2.1.1 := by
          rw [← hStP]
        rw [h, pFl]
      subst hEvPE
      subst hqP
      subst hfP
      have hQ' : ∀ x ∈ pushDirs d q.dropLast
          (iterateStoragePaths B (pureCb (ε := ε)) pf d ()).1, QInv B x :=
        pushDirs_QInv B hd _ q.dropLast
          (fun x hx => hq x (List.mem_of_mem_dropLast hx))
      have hwalk : ∀ ev' ∈ walkEvts d
          (iterateStoragePaths B (pureCb (ε := ε)) pf d ()).1,
          (∀ n, ev' = Event.leaf n → n.head? = some '/') ∧
          (∀ n, ev' = Event.marker n → ¬n.head? = some '/') := by
        intro ev' hev'
        rcases walkEvts_mem _ hallE ev' hev' with ⟨c, rfl⟩ | ⟨n, _, _, rfl⟩
        · exact ⟨by simp, by simp⟩
        · refine ⟨?_, by simp⟩
          intro n' h
          have hn' : n' = d ++ n := by
            have h2 : d ++ n = n' := by injection h
            exact h2.symm
          rw [hn', head?_append_left hdne]
          exact hd.1
      simp only [drainLoop, hql, hP] at hev
      cases ocP with
      | err e => exact hwalk ev hev
      | spin => exact hwalk ev hev
      | ok =>
        by_cases hcond : ((true && !(iterateStoragePaths B (pureCb (ε := ε))
            pf d ()).1.any isEmitEv) &&
            (splitBucketPfx d).2.isEmpty) = true
        · rw [if_pos hcond] at hev
          simp only [pureCb] at hev
          rcases List.mem_append.mp hev with h | h
          · exact hwalk ev h
          · rcases List.mem_cons.mp h with h | h
            · subst h
              refine ⟨by simp, ?_⟩
              intro n hn
              have hn' : n = (splitBucketPfx d).1 ++ ['/'] := by
                have h2 : (splitBucketPfx d).1 ++ ['/'] = n := by injection hn
                exact h2.symm
              subst hn'
              by_cases hbkt : (splitBucketPfx d).1 = []
              · exfalso
                have hpfx : (splitBucketPfx d).2 = [] := by
                  have h2 := Bool.and_elim_right hcond
                  exact List.isEmpty_iff.mp h2
                have hboth : splitBucketPfx d = ([], []) := by
                  exact Prod.ext hbkt hpfx
                have hd2 := splitBucketPfx_both_nil hboth
                have hdd : d = ['/', '/'] := by
                  rcases hd2 with h3 | h3 | h3
                  · exact absurd h3 hdne
                  · exfalso
                    have h2 := hd.2.1
                    rw [h3] at h2
                    simp at h2
                  · exact h3
                obtain ⟨l, hbkl, h0l⟩ := hd.2.2 hdd
                have hcondd : ((splitBucketPfx d).1.isEmpty ||
                    ((splitBucketPfx d).2.isEmpty && !endsSlash d)) = true := by
                  rw [hbkt]
                  rfl
                have hany := bucket_events_any_emit B pf d l hcondd hbkl
                  (by
                    rw [hbkt, bucket_filter_nil_pre]
                    intro hl
                    rw [hl] at h0l
                    simp at h0l)
                have hflag := Bool.and_elim_left hcond
                rw [hany] at hflag
                simp at hflag
              · have hh : ((splitBucketPfx d).1 ++ ['/']).head? =
                    (splitBucketPfx d).1.head? := head?_append_left hbkt
                rw [hh]
                intro hcontra
                exact splitBucketPfx_fst_no_slash d
                  (List.mem_of_mem_head? hcontra)
            · exact ih _ hQ' ev h
        · rw [if_neg hcond] at hev
          rcases List.mem_append.mp hev with h | h
          · exact hwalk ev h
          · exact ih _ hQ' ev h

theorem walk_pure_slash {ε : Type} (B : Backend ε) (pf qf : Nat) (path : GoStr)
    (hpath : path.head? = some '/') :
    ∀ ev ∈ (iterateStoragePathsAll B (pureCb (ε := ε)) pf qf path ()).1,
      (∀ n, ev = Event.leaf n → n.head? = some '/') ∧
      (∀ n, ev = Event.marker n → ¬n.head? = some '/') := by
  intro ev hev
  have hallE : ∀ e ∈ (iterateStoragePaths B (pureCb (ε := ε)) pf path ()).1,
      CallEmit e :=
    fun e h => iterate_events_shape B (pureCb (ε := ε)) pf path () e h
  obtain ⟨pF1, pF2, pF3, pF4⟩ :=
    consume_seedCb (if endsSlash path then path else pathSplitDir path)
      (pureCb (ε := ε)) (iterateStoragePaths B (pureCb (ε := ε)) pf path ()).1
      [] () hallE
  rw [consume_pure] at pF3
  obtain ⟨pQ, pEv⟩ := pF4 pF3
  rcases hP : iterateStoragePaths B
    (seedCb (if endsSlash path then path else pathSplitDir path) (pureCb (ε := ε)))
    pf path ([], ()) with ⟨EvP, ⟨qP, sP⟩, ocP⟩
  have hPf := iterate_eq_consume2 B
    (seedCb (if endsSlash path then path else pathSplitDir path) (pureCb (ε := ε)))
    pf path ([], ())
  rw [hP] at hPf
  simp only [Prod.mk.injEq] at hPf
  obtain ⟨hEvP, hStP, hOcP⟩ := hPf
  have hEvPE : EvP = (iterateStoragePaths B (pureCb (ε := ε)) pf path ()).1 := by
    rw [hEvP, pEv]
  have hqP : qP = pushDirs (if endsSlash path then path else pathSplitDir path) []
      (iterateStoragePaths B (pureCb (ε := ε)) pf path ()).1 := by
    have h : qP = (consume
        (seedCb (if endsSlash path then path else pathSplitDir path) (pureCb (ε := ε)))
        ([], ()) (iterateStoragePaths B (pureCb (ε := ε)) pf path ()).1).2.1.1 := by
      rw [← hStP]
    rw [h, pQ]
  subst hEvPE
  subst hqP
  have hbne : (if endsSlash path then path else pathSplitDir path) ≠ [] := by
    by_cases hend : endsSlash path = true
    · rw [if_pos hend]
      intro h
      rw [h] at hpath
      simp at hpath
    · rw [if_neg hend]
      obtain ⟨c, cs, rfl⟩ : ∃ c cs, path = c :: cs := by
        cases path with
        | nil => simp at hpath
        | cons c cs => exact ⟨c, cs, rfl⟩
      have hc : c = '/' := by simpa using hpath
      subst hc
      rw [pathSplitDir]
      by_cases hcc : cs.contains '/'
      · rw [if_pos hcc]
        simp
      · rw [if_neg hcc, if_pos rfl]
        simp
  have hbh : (if endsSlash path then path else pathSplitDir path).head? =
      some '/' := by
    by_cases hend : endsSlash path = true
    · rw [if_pos hend]
      exact hpath
    · rw [if_neg hend]
      obtain ⟨c, cs, rfl⟩ : ∃ c cs, path = c :: cs := by
        cases path with
        | nil => simp at hpath
        | cons c cs => exact ⟨c, cs, rfl⟩
      have hc : c = '/' := by simpa using hpath
      subst hc
      rw [pathSplitDir]
      by_cases hcc : cs.contains '/'
      · rw [if_pos hcc]
        rfl
      · rw [if_neg hcc, if_pos rfl]
        rfl
  have hwalk : ∀ ev' ∈ walkEvts (if endsSlash path then path else pathSplitDir path)
      (iterateStoragePaths B (pureCb (ε := ε)) pf path ()).1,
      (∀ n, ev' = Event.leaf n → n.head? = some '/') ∧
      (∀ n, ev' = Event.marker n → ¬n.head? = some '/') := by
    intro ev' hev'
    rcases walkEvts_mem _ hallE ev' hev' with ⟨c, rfl⟩ | ⟨n, _, _, rfl⟩
    · exact ⟨by simp, by simp⟩
    · refine ⟨?_, by simp⟩
      intro n' h
      have hn' : n' = (if endsSlash path then path else pathSplitDir path) ++ n := by
        have h2 : (if endsSlash path then path else pathSplitDir path) ++ n = n' := by
          injection h
        exact h2.symm
      rw [hn', head?_append_left hbne]
      exact hbh
  rw [iterateStoragePathsAll] at hev
  simp only [← Prod.mk.injEq] at hev
  rw [hP] at hev
  cases ocP with
  | err e => exact hwalk ev hev
  | spin => exact hwalk ev hev
  | ok =>
    rcases List.mem_append.mp hev with h | h
    · exact hwalk ev h
    · exact drainLoop_pure_slash B pf qf _
        (seedQueue_QInv B pf path hpath) ev h

/-- C10: in a walk started from a parsed address (whose remote path
begins with '/'), every leaf path delivered by the recursive walk —
the concatenation of the directory path it was discovered under with
the entry name — begins with '/', while every synthetic empty-bucket
result, built as bucket ++ "/" with no leading slash restored, does
not begin with '/'. -/
theorem walk_leaf_marker_slashes {σ ε : Type} (B : Backend ε)
    (cb : σ → GoStr → σ × Option ε) (pf qf : Nat) (path : GoStr) (s : σ)
    (hpath : path.head? = some '/') :
    ∀ ev ∈ (iterateStoragePathsAll B cb pf qf path s).1,
      (∀ n, ev = Event.leaf n → n.head? = some '/') ∧
      (∀ n, ev = Event.marker n → ¬n.head? = some '/') := by
  intro ev hev
  rw [iterateAll_eq_consume] at hev
  have hev2 : ev ∈ (consume cb s
      (iterateStoragePathsAll B (pureCb (ε := ε)) pf qf path ()).1).1 := hev
  obtain ⟨k, hk⟩ := consume_take cb
    (iterateStoragePathsAll B (pureCb (ε := ε)) pf qf path ()).1 s
  rw [hk] at hev2
  exact walk_pure_slash B pf qf path hpath ev (List.mem_of_mem_take hev2)

/-- C10 witness: walking `ss:///` over a backend with one empty
bucket "b" delivers the synthetic marker `b/`, which indeed does not
begin with '/'. -/
theorem walk_leaf_marker_slashes_witness :
    Event.marker (gs "b/") ∈ (iterateStoragePathsAll emptyBucketBackend
        (collect (ε := Nat)) 4 4 (gs "/") []).1 ∧
      ¬(gs "b/").head? = some '/' :=
  ⟨by decide,
    (walk_leaf_marker_slashes emptyBucketBackend (collect (ε := Nat)) 4 4
      (gs "/") [] (by decide) (Event.marker (gs "b/")) (by decide)).2
      (gs "b/") rfl⟩

/-- C8: any backend-call or consumer error aborts both the
single-level listing and the recursive walk immediately and is
returned unchanged, and results already delivered are never
retracted.  Formally: every run equals the replay (`consume`) of the
corresponding pure run's event stream against the callback, where the
replay stops right at the first callback error (which overrides the
pure outcome unchanged, via `combineOutcome`) and otherwise returns
the pure outcome — in particular the first backend error — unchanged;
and the replayed (delivered) events are always a take-prefix of the
pure stream, so the delivered output is a prefix of the full result
and no further events follow a failure. -/
theorem error_abort_and_prefix_delivery :
    (∀ (σ ε : Type) (B : Backend ε) (cb : σ → GoStr → σ × Option ε)
        (pf : Nat) (path : GoStr) (s : σ),
      iterateStoragePaths B cb pf path s =
        ((consume cb s (iterateStoragePaths B (pureCb (ε := ε)) pf path ()).1).1,
          (consume cb s (iterateStoragePaths B (pureCb (ε := ε)) pf path ()).1).2.1,
          combineOutcome
            (consume cb s (iterateStoragePaths B (pureCb (ε := ε)) pf path ()).1).2.2
            (iterateStoragePaths B (pureCb (ε := ε)) pf path ()).2.2)) ∧
    (∀ (σ ε : Type) (B : Backend ε) (cb : σ → GoStr → σ × Option ε)
        (pf qf : Nat) (path : GoStr) (s : σ),
      iterateStoragePathsAll B cb pf qf path s =
        ((consume cb s (iterateStoragePathsAll B (pureCb (ε := ε)) pf qf path ()).1).1,
          (consume cb s (iterateStoragePathsAll B (pureCb (ε := ε)) pf qf path ()).1).2.1,
          combineOutcome
            (consume cb s
              (iterateStoragePathsAll B (pureCb (ε := ε)) pf qf path ()).1).2.2
            (iterateStoragePathsAll B (pureCb (ε := ε)) pf qf path ()).2.2)) ∧
    (∀ (σ ε : Type) (cb : σ → GoStr → σ × Option ε) (evs : List Event) (s : σ),
      ∃ k, (consume cb s evs).1 = evs.take k) :=
  ⟨fun _ _ B cb pf path s => iterate_eq_consume2 B cb pf path s,
    fun _ _ B cb pf qf path s => iterateAll_eq_consume B cb pf qf path s,
    fun _ _ cb evs s => consume_take cb evs s⟩

/-!
### Address parsing (C3, C4)
-/

/-- Characters with no special role in any stage of `url.Parse`: not
a percent escape, query, fragment, or control character. -/
def plainChar (c : Char) : Bool :=
  !(c = '%' || c = '?' || c = '#' || c.toNat < 0x20 || c.toNat = 0x7f)

theorem cutAtFirstKeep_not_mem {c : Char} :
    ∀ {s : GoStr}, c ∉ s → cutAtFirstKeep c s = (s, []) := by
  intro s
  induction s with
  | nil => intro _; rfl
  | cons x xs ih =>
    intro h
    simp only [List.mem_cons, not_or] at h
    rw [cutAtFirstKeep, if_neg (fun hx => h.1 hx.symm), ih h.2]

theorem unescape_not_mem : ∀ {s : GoStr}, '%' ∉ s → unescape s = some s := by
  intro s
  induction s with
  | nil => intro _; rfl
  | cons x xs ih =>
    intro h
    simp only [List.mem_cons, not_or] at h
    have hx : x ≠ '%' := fun hxx => h.1 hxx.symm
    have hstep : unescape (x :: xs) = (unescape xs).map fun r => x :: r := by
      rw [unescape.eq_def]
      split
      · rename_i heq
        simp at heq
      · rename_i c1 c2 rest heq
        exfalso
        apply hx
        injection heq with h1 _
      · rename_i r hall hne
        exfalso
        apply hx
        injection hne with h1 _
      · rename_i c r hall hno hcons
        have h1 : c = x := by injection hcons with h1 _; exact h1.symm
        have h2 : r = xs := by injection hcons with _ h2; exact h2.symm
        rw [h1, h2]
    rw [hstep, ih h.2]
    rfl

theorem plain_all_facts {s : GoStr} (h : s.all plainChar = true) :
    '%' ∉ s ∧ '?' ∉ s ∧ '#' ∉ s ∧ hasCtl s = false := by
  have hall := List.all_eq_true.mp h
  have hc : ∀ c ∈ s, ¬c = '%' ∧ ¬c = '?' ∧ ¬c = '#' ∧
      ¬c.toNat < 0x20 ∧ ¬c.toNat = 0x7f := by
    intro c hcm
    have := hall c hcm
    simp only [plainChar, Bool.not_eq_true', Bool.or_eq_false_iff,
      decide_eq_false_iff_not] at this
    exact ⟨this.1.1.1.1, this.1.1.1.2, this.1.1.2, this.1.2, this.2⟩
  refine ⟨fun hm => (hc '%' hm).1 rfl, fun hm => (hc '?' hm).2.1 rfl,
    fun hm => (hc '#' hm).2.2.1 rfl, ?_⟩
  rw [hasCtl, List.any_eq_false]
  intro c hcm
  have h2 := hc c hcm
  show ¬(decide (c.toNat < 0x20) || decide (c.toNat = 0x7f)) = true
  rw [Bool.not_eq_true, Bool.or_eq_false_iff]
  exact ⟨decide_eq_false h2.2.2.2.1, decide_eq_false h2.2.2.2.2⟩

theorem schemeScan_ss (orig rest : GoStr) :
    schemeScan orig [] ('s' :: 's' :: ':' :: rest) = .ok (['s', 's'], rest) := rfl

theorem hasCtl_cons (c : Char) (s : GoStr) :
    hasCtl (c :: s) = ((c.toNat < 0x20 || c.toNat = 0x7f) || hasCtl s) := by
  simp [hasCtl, List.any_cons]

theorem not_mem_cons_of_ne {c x : Char} {s : GoStr} (h1 : c ≠ x) (h2 : c ∉ s) :
    c ∉ x :: s := by
  intro hm
  rcases List.mem_cons.mp hm with h | h
  · exact h1 h
  · exact h2 h

theorem ss_three_slash_ok (rest : GoStr) (hplain : rest.all plainChar = true) :
    parseStorageURL (gs "ss:///" ++ rest) = .ok ('/' :: rest) := by
  obtain ⟨hpct, hq, hhash, hctl⟩ := plain_all_facts hplain
  have hraw : gs "ss:///" ++ rest =
      's' :: 's' :: ':' :: '/' :: '/' :: '/' :: rest := rfl
  rw [hraw]
  have hnh : '#' ∉ 's' :: 's' :: ':' :: '/' :: '/' :: '/' :: rest := by
    refine not_mem_cons_of_ne (by decide) (not_mem_cons_of_ne (by decide)
      (not_mem_cons_of_ne (by decide) (not_mem_cons_of_ne (by decide)
      (not_mem_cons_of_ne (by decide) (not_mem_cons_of_ne (by decide) hhash)))))
  have hnq : '?' ∉ '/' :: '/' :: '/' :: rest :=
    not_mem_cons_of_ne (by decide) (not_mem_cons_of_ne (by decide)
      (not_mem_cons_of_ne (by decide) hq))
  have hnp : '%' ∉ ('/' :: rest) := not_mem_cons_of_ne (by decide) hpct
  have hctl6 : hasCtl ('s' :: 's' :: ':' :: '/' :: '/' :: '/' :: rest) = false := by
    rw [hasCtl_cons, hasCtl_cons, hasCtl_cons, hasCtl_cons, hasCtl_cons,
      hasCtl_cons, hctl]
    decide
  have hinner : goUrlParseInner ('s' :: 's' :: ':' :: '/' :: '/' :: '/' :: rest) =
      .ok ⟨['s', 's'], [], '/' :: rest⟩ := by
    rw [goUrlParseInner, if_neg (by rw [hctl6]; exact Bool.false_ne_true),
      if_neg (by simp), schemeScan_ss]
    simp only [cutAtFirstKeep_not_mem hnq, unescape_not_mem hnp,
      List.head?_cons, ne_eq, Option.some.injEq, List.drop_succ_cons,
      List.drop_zero]
    rw [if_pos (show ((!List.isEmpty (lowerStr ['s', 's']) ||
      !startsWith3Slash ('/' :: '/' :: '/' :: rest)) &&
      startsWith2Slash ('/' :: '/' :: '/' :: rest)) = true from rfl)]
    have hcut2 : cutAtFirstKeep '/' (('/' : Char) :: rest) = ([], '/' :: rest) := rfl
    rw [hcut2]
    simp only [unescape_not_mem hnp]
    rw [if_neg (show ¬¬True from not_not_intro trivial)]
    rfl
  rw [parseStorageURL, goUrlParse, cutAtFirstKeep_not_mem hnh, hinner]
  show (if lowerStr ['s', 's'] ≠ storageScheme ∨ ('/' :: rest : GoStr) = [] ∨
      ([] : GoStr) ≠ [] then Except.error ParseErr.invalid
    else Except.ok ('/' :: rest)) = Except.ok ('/' :: rest)
  rw [if_neg]
  push_neg
  refine ⟨by decide, List.cons_ne_nil _ _, rfl⟩

theorem sofs_append (b p : GoStr) (hb : '/' ∉ b) :
    splitOnFirstSlash (b ++ '/' :: p) = some (b, p) := by
  induction b with
  | nil => rfl
  | cons c cs ih =>
    have hc : ¬c = '/' := fun h => hb (h ▸ List.mem_cons_self c cs)
    rw [List.cons_append, splitOnFirstSlash_cons, if_neg hc,
      ih (fun hm => hb (List.mem_cons_of_mem c hm))]

theorem splitBucketPfx_parse (b p : GoStr) (hb : '/' ∉ b) :
    splitBucketPfx ('/' :: (b ++ '/' :: p)) = (b, p) := by
  have hne : b ++ '/' :: p ≠ [] :=
    List.append_ne_nil_of_right_ne_nil b (List.cons_ne_nil _ _)
  rw [splitBucketPfx, if_neg (by simp [hne])]
  simp only [List.head?_cons, List.tail_cons]
  rw [if_pos trivial, sofs_append b p hb]

/-- C3 counterexample.  `ParseStorageURL` does NOT require exactly three
slashes after the colon: `ss:/a/b` (one slash) and `ss:////x` (four
slashes) both succeed, because `url.Parse` treats a non-`//`-prefixed
remainder as a rooted path and `ss:////x` as an empty authority followed
by path `//x`.  The claim says both inputs must fail with the
invalid-address error. -/
theorem slash_count_counterexample :
    parseStorageURL (gs "ss:/a/b") = .ok (gs "/a/b") ∧
    parseStorageURL (gs "ss:////x") = .ok (gs "//x") := ⟨rfl, rfl⟩

/-- C3 (amended): the actual acceptance condition of `ParseStorageURL`.
Any `ss:///rest` with `rest` free of `%`, `?`, `#` and control bytes
succeeds and returns `/rest`; the scheme comparison is case-insensitive
(`SS:///x` succeeds); a non-empty host (`ss://h/x`), a wrong scheme
(`http:///x`), an empty path (`ss:`), and an opaque non-rooted path
(`ss:x`) all fail with the invalid-address error; a missing scheme is
reported as the underlying `url.Parse` error, not the invalid-address
error, when `url.Parse` itself fails (`:x`), and as the invalid-address
error when `url.Parse` succeeds with an empty scheme (`x`). -/
theorem parse_acceptance (rest : GoStr) (hplain : rest.all plainChar = true) :
    parseStorageURL (gs "ss:///" ++ rest) = .ok ('/' :: rest) ∧
    parseStorageURL (gs "SS:///x") = .ok (gs "/x") ∧
    parseStorageURL (gs "ss://h/x") = .error .invalid ∧
    parseStorageURL (gs "http:///x") = .error .invalid ∧
    parseStorageURL (gs "ss:") = .error .invalid ∧
    parseStorageURL (gs "ss:x") = .error .invalid ∧
    parseStorageURL (gs "x") = .error .invalid ∧
    parseStorageURL (gs ":x") = .error (.urlErr .missingScheme) :=
  ⟨ss_three_slash_ok rest hplain, rfl, rfl, rfl, rfl, rfl, rfl, rfl⟩

/-- Witness for `parse_acceptance` at `rest = "a/b"`. -/
theorem parse_acceptance_witness :
    (gs "a/b").all plainChar = true ∧
    (parseStorageURL (gs "ss:///" ++ gs "a/b") = .ok ('/' :: gs "a/b") ∧
     parseStorageURL (gs "SS:///x") = .ok (gs "/x") ∧
     parseStorageURL (gs "ss://h/x") = .error .invalid ∧
     parseStorageURL (gs "http:///x") = .error .invalid ∧
     parseStorageURL (gs "ss:") = .error .invalid ∧
     parseStorageURL (gs "ss:x") = .error .invalid ∧
     parseStorageURL (gs "x") = .error .invalid ∧
     parseStorageURL (gs ":x") = .error (.urlErr .missingScheme)) :=
  ⟨by decide, parse_acceptance (gs "a/b") (by decide)⟩

/-- C4 counterexample.  `ParseStorageURL` percent-decodes the path, so
the reconstructed bucket/prefix are NOT always "exactly as written in
the address": for `ss:///a%2Fb` the path component as written is
`a%2Fb`, but the parser returns `/a/b` and the splitter reconstructs
bucket `a` and prefix `b`. -/
theorem percent_decoding_counterexample :
    parseStorageURL (gs "ss:///a%2Fb") = .ok (gs "/a/b") ∧
    splitBucketPfx (gs "/a/b") = (gs "a", gs "b") ∧
    gs "a" ≠ gs "a%2Fb" := ⟨rfl, rfl, by decide⟩

/-- C4 (amended): for addresses whose bucket and prefix contain no
percent-escapes (and no `?`, `#` or control bytes), the round trip is
exact: `ParseStorageURL` returns the path exactly as written including
the leading `/`, and `SplitBucketPrefix` recovers the bucket and prefix
character-for-character with only the one leading `/` stripped. -/
theorem parse_split_roundtrip (b p : GoStr)
    (hb : b.all plainChar = true) (hp : p.all plainChar = true)
    (hbs : '/' ∉ b) :
    parseStorageURL (gs "ss:///" ++ (b ++ '/' :: p)) =
      .ok ('/' :: (b ++ '/' :: p)) ∧
    splitBucketPfx ('/' :: (b ++ '/' :: p)) = (b, p) := by
  have hall : (b ++ '/' :: p).all plainChar = true := by
    rw [List.all_append, hb, Bool.true_and, List.all_cons, hp]
    rfl
  exact ⟨ss_three_slash_ok _ hall, splitBucketPfx_parse b p hbs⟩

/-- Witness for `parse_split_roundtrip` at bucket `a`, prefix `p/q`. -/
theorem parse_split_roundtrip_witness :
    (gs "a").all plainChar = true ∧ (gs "p/q").all plainChar = true ∧
    '/' ∉ gs "a" ∧
    (parseStorageURL (gs "ss:///" ++ (gs "a" ++ '/' :: gs "p/q")) =
       .ok ('/' :: (gs "a" ++ '/' :: gs "p/q")) ∧
     splitBucketPfx ('/' :: (gs "a" ++ '/' :: gs "p/q")) =
       (gs "a", gs "p/q")) :=
  ⟨by decide, by decide, by decide,
    parse_split_roundtrip (gs "a") (gs "p/q") (by decide) (by decide)
      (by decide)⟩
